import Mathlib

/-!
Verification of the flow-map normalization core of the Dataiku MCP server.

This file gives a shallow embedding of `src/tools/flow-map.ts`
(`normalizeFlowGraph` and its helpers) and of `truncateFlowMap` /
`computeRootsAndLeaves` (the truncation layer exercised by
`tests/unit/register-tool.test.ts`), and proves the spec's claims about them.

Modelling conventions:
* Untyped JavaScript values are modelled by the inductive `JVal`; a possibly
  `undefined` value is an `Option JVal` (`none` = `undefined`).
* JavaScript `Map` objects are modelled as insertion-ordered association
  lists; `set` on an existing key updates the entry in place, `set` on a new
  key appends (exactly the iteration-order semantics of a JS `Map`).
* `String.prototype.localeCompare` is modelled as lexicographic comparison of
  Unicode code points (`strLt`/`strLe` below), and `toUpperCase` as
  `Char.toUpper` applied characterwise (`strToUpper`); both agree with the
  JS functions on ASCII data.
* The JS engine's `Array.prototype.sort` (stable since ES2019) is modelled by
  `List.insertionSort`, which is a stable sort.
-/

/-- Untyped JSON-like runtime value (a defined JavaScript value). -/
inductive JVal where
  | str (s : String)
  | num (n : Int)
  | bool (b : Bool)
  | null
  | arr (items : List JVal)
  | obj (fields : List (String × JVal))

/-- Property access on a record: first binding of the key, if any. -/
def jget (fields : List (String × JVal)) (key : String) : Option JVal :=
  (fields.find? (fun p => p.1 == key)).map (·.2)

/-- `asRecord` from flow-map.ts: accept only non-null, non-array objects. -/
def asRecord : Option JVal → Option (List (String × JVal))
  | some (.obj fields) => some fields
  | _ => none

/-- `asString` from flow-map.ts: accept only non-empty strings. -/
def asString : Option JVal → Option String
  | some (.str s) => if s.length > 0 then some s else none
  | _ => none

/-- Warning emitted by `asStringArray` for a non-array defined value. -/
def skippedArrayWarning (context : String) : String :=
  "Skipped non-array \"" ++ context ++ "\" field."

/-- Warning emitted by `asStringArray` for a skipped array item. -/
def skippedItemWarning (context : String) : String :=
  "Skipped non-string item in \"" ++ context ++ "\"."

/-- `asStringArray` from flow-map.ts.  Returns the retained items together
with the updated warnings list (the TS function mutates `warnings`). -/
def asStringArray (value : Option JVal) (warnings : List String) (context : String) :
    List String × List String :=
  match value with
  | none => ([], warnings)
  | some (.arr items) =>
      items.foldl
        (fun acc item =>
          match item with
          | .str s =>
              if s.length > 0 then (acc.1 ++ [s], acc.2)
              else (acc.1, acc.2 ++ [skippedItemWarning context])
          | _ => (acc.1, acc.2 ++ [skippedItemWarning context]))
        ([], warnings)
  | some _ => ([], warnings ++ [skippedArrayWarning context])

/-- `FlowNodeKind` from flow-map.ts. -/
inductive FlowNodeKind where
  | dataset
  | recipe
  | folder
  | other
deriving DecidableEq, Repr

/-- `FlowEdgeRelation` from flow-map.ts. -/
inductive FlowEdgeRelation where
  | reads
  | writes
  | depends_on
  | unknown
deriving DecidableEq, Repr

/-- `NormalizedFlowNode` from flow-map.ts. -/
structure NormalizedFlowNode where
  id : String
  kind : FlowNodeKind
  name : Option String := none
  subtype : Option String := none
  connection : Option String := none
deriving DecidableEq, Repr

/-- `NormalizedFlowEdge` from flow-map.ts (`from`/`to` are Lean keywords,
hence the primed field names). -/
structure NormalizedFlowEdge where
  from' : String
  to' : String
  relation : FlowEdgeRelation
deriving DecidableEq, Repr

/-- `stats` record of `NormalizedFlowMap`. -/
structure FlowMapStats where
  nodeCount : Nat
  edgeCount : Nat
  datasets : Nat
  recipes : Nat
  roots : Nat
  leaves : Nat
deriving DecidableEq, Repr

/-- `NormalizedFlowMap` from flow-map.ts. -/
structure NormalizedFlowMap where
  projectKey : String
  nodes : List NormalizedFlowNode
  edges : List NormalizedFlowEdge
  stats : FlowMapStats
  roots : List String
  leaves : List String
  warnings : List String
deriving DecidableEq, Repr

/-- `NormalizeFlowGraphOptions` from flow-map.ts.  `folderNamesById` is a
string-keyed record, modelled as an association list. -/
structure NormalizeFlowGraphOptions where
  folderNamesById : List (String × String) := []
  allDatasetNames : Option (List String) := none
  allRecipeNames : Option (List String) := none
  allFolderIds : Option (List String) := none

/-- `InternalNode` from flow-map.ts. -/
structure InternalNode where
  id : String
  kind : FlowNodeKind
  name : Option String := none
  subtype : Option String := none
  connection : Option String := none
  predecessors : List String := []
  successors : List String := []
deriving DecidableEq, Repr

/-- Characterwise `toUpperCase` (equals `String.toUpper`, but defined over
the char list so that it computes by kernel reduction). -/
def strToUpper (s : String) : String := ⟨s.data.map Char.toUpper⟩

/-- `inferKind` needs uppercase substring tests; `leadsList pat l` says the
char list `l` starts with `pat`. -/
def leadsList : List Char → List Char → Bool
  | [], _ => true
  | _ :: _, [] => false
  | p :: ps, c :: cs => p == c && leadsList ps cs

/-- `occursIn pat l`: the char list `pat` occurs contiguously inside `l`
(model of `String.prototype.includes`). -/
def occursIn (pat : List Char) : List Char → Bool
  | [] => pat.isEmpty
  | c :: cs => leadsList pat (c :: cs) || occursIn pat cs

/-- Model of `s.includes(pat)` for strings. -/
def strContains (s pat : String) : Bool :=
  occursIn pat.data s.data

/-- `inferKind` from flow-map.ts. -/
def inferKind : Option String → FlowNodeKind
  | none => .other
  | some t =>
      let upper := strToUpper t
      if strContains upper "RECIPE" then .recipe
      else if strContains upper "DATASET" then .dataset
      else if strContains upper "FOLDER" then .folder
      else .other

/-- `inferSubtypeFromType` from flow-map.ts. -/
def inferSubtypeFromType : Option String → Option String
  | none => none
  | some t => if strContains (strToUpper t) "IMPLICIT_RECIPE" then some "implicit" else none

/-- `relationRank` from flow-map.ts. -/
def relationRank : FlowEdgeRelation → Nat
  | .reads => 3
  | .writes => 3
  | .depends_on => 2
  | .unknown => 1

/-- `inferRelation` from flow-map.ts. -/
def inferRelation (fromKind toKind : FlowNodeKind) : FlowEdgeRelation :=
  if (fromKind = .dataset ∨ fromKind = .folder) ∧ toKind = .recipe then .reads
  else if fromKind = .recipe ∧ (toKind = .dataset ∨ toKind = .folder) then .writes
  else if fromKind = .other ∨ toKind = .other then .unknown
  else .depends_on

/-- `preferredKind` from flow-map.ts. -/
def preferredKind (current incoming : FlowNodeKind) : FlowNodeKind :=
  if current = incoming then current
  else if current = .other then incoming
  else current

/-- `getConnection` from flow-map.ts. -/
def getConnection (record : List (String × JVal)) : Option String :=
  match asString (jget record "connection") with
  | some direct => some direct
  | none =>
      match asRecord (jget record "params") with
      | some params => asString (jget params "connection")
      | none => none

/-- JS truthiness of an optional string: `undefined` and `""` are falsy. -/
def truthyS : Option String → Bool
  | some s => s.length > 0
  | none => false

/-- Lookup in a `Record<string, string>` followed by `asString` narrowing
(the `asString(options.folderNamesById?.[id])` pattern). -/
def lookupName (tbl : List (String × String)) (id : String) : Option String :=
  match (tbl.find? (fun p => p.1 == id)).map (·.2) with
  | some s => if s.length > 0 then some s else none
  | none => none

/-- Working state of the graph builder: the `nodeMap` and `aliasMap` JS Maps
(insertion-ordered association lists) plus the accumulated warnings. -/
structure BuildState where
  nodeMap : List InternalNode
  aliasMap : List (String × String)
  warnings : List String

/-- `Map.set` for the alias map: update the first entry with the key in
place, otherwise append. -/
def setAlias : List (String × String) → String → String → List (String × String)
  | [], key, v => [(key, v)]
  | (a, w) :: rest, key, v =>
      if a == key then (key, v) :: rest else (a, w) :: setAlias rest key v

/-- `addAlias` from flow-map.ts (skips falsy aliases: `undefined` and `""`). -/
def addAlias (am : List (String × String)) (a? : Option String) (id : String) :
    List (String × String) :=
  match a? with
  | none => am
  | some a => if a.length > 0 then setAlias am a id else am

/-- `resolveAlias` from flow-map.ts: `aliasMap.get(ref) ?? ref`. -/
def resolveAlias (am : List (String × String)) (ref : String) : String :=
  match (am.find? (fun p => p.1 == ref)).map (·.2) with
  | some v => v
  | none => ref

/-- `Map.set` for the node map (keyed by `id`): replace the first entry with
the same id in place, otherwise append. -/
def setNode : List InternalNode → InternalNode → List InternalNode
  | [], n => [n]
  | x :: rest, n => if x.id == n.id then n :: rest else x :: setNode rest n

/-- The argument record of `upsertNode` (an `InternalNode` without its
adjacency lists). -/
structure NodeDecl where
  id : String
  kind : FlowNodeKind
  name : Option String := none
  subtype : Option String := none
  connection : Option String := none

/-- The merge performed by `upsertNode` on an existing entry: first
truthy value wins for `name`/`subtype`/`connection`, `preferredKind` for
`kind`. -/
def mergeNode (existing : InternalNode) (node : NodeDecl) : InternalNode :=
  { existing with
    kind := preferredKind existing.kind node.kind
    name := if !truthyS existing.name && truthyS node.name then node.name else existing.name
    subtype :=
      if !truthyS existing.subtype && truthyS node.subtype then node.subtype
      else existing.subtype
    connection :=
      if !truthyS existing.connection && truthyS node.connection then node.connection
      else existing.connection }

/-- `upsertNode` from flow-map.ts. -/
def upsertNode (m : List InternalNode) (node : NodeDecl) : List InternalNode :=
  match m.find? (fun x => x.id == node.id) with
  | none =>
      m ++ [{ id := node.id, kind := node.kind, name := node.name,
              subtype := node.subtype, connection := node.connection,
              predecessors := [], successors := [] }]
  | some existing => setNode m (mergeNode existing node)

/-- The diagnostic appended by `ensureNode` when it synthesizes a
placeholder. -/
def placeholderWarning (id : String) : String :=
  "Added placeholder node for \"" ++ id ++ "\" referenced by an edge."

/-- `ensureNode` from flow-map.ts: return the canonical node for `id`,
lazily inserting an "other"-kind placeholder (plus a warning) if unseen.
Returns the node together with the updated map and warnings. -/
def ensureNode (m : List InternalNode) (warnings : List String) (id : String) :
    InternalNode × List InternalNode × List String :=
  match m.find? (fun x => x.id == id) with
  | some existing => (existing, m, warnings)
  | none =>
      let placeholder : InternalNode :=
        { id := id, kind := .other, name := some id, subtype := none,
          connection := none, predecessors := [], successors := [] }
      (placeholder, m ++ [placeholder], warnings ++ [placeholderWarning id])

/-- In-place assignment of the adjacency lists of the node with the given id
(the `node.predecessors = ...; node.successors = ...` mutation). -/
def setAdj : List InternalNode → String → List String → List String → List InternalNode
  | [], _, _, _ => []
  | x :: rest, id, ps, ss =>
      if x.id == id then { x with predecessors := ps, successors := ss } :: rest
      else x :: setAdj rest id ps ss

/-- Warning for a node entry skipped because it was not an object. -/
def skippedNodeWarning (nodeKey : String) : String :=
  "Skipped node \"" ++ nodeKey ++ "\" because it was not an object."

/-- Processing of one `(nodeKey, nodeValue)` entry of `raw.nodes`
(the body of the first loop of `normalizeFlowGraph`). -/
def processRawNode (options : NormalizeFlowGraphOptions) (st : BuildState)
    (entry : String × JVal) : BuildState :=
  match asRecord (some entry.2) with
  | none => { st with warnings := st.warnings ++ [skippedNodeWarning entry.1] }
  | some nodeObj =>
      let nodeKey := entry.1
      let ref := asString (jget nodeObj "ref")
      let id := ref.getD nodeKey
      let kind := inferKind (asString (jget nodeObj "type"))
      let subtype :=
        match asString (jget nodeObj "subType") with
        | some s => some s
        | none =>
            match asString (jget nodeObj "subtype") with
            | some s => some s
            | none => inferSubtypeFromType (asString (jget nodeObj "type"))
      let fallbackName :=
        (match asString (jget nodeObj "name") with
         | some s => some s
         | none =>
             match asString (jget nodeObj "label") with
             | some s => some s
             | none => ref).getD nodeKey
      let folderName :=
        if kind = .folder then lookupName options.folderNamesById id else none
      let name := folderName.getD fallbackName
      let connection := getConnection nodeObj
      let m1 := upsertNode st.nodeMap
        { id := id, kind := kind, name := some name, subtype := subtype,
          connection := connection }
      let am1 := addAlias st.aliasMap (some nodeKey) id
      let am2 := addAlias am1 ref id
      let am3 := addAlias am2 (asString (jget nodeObj "id")) id
      let en := ensureNode m1 st.warnings id
      let preds := asStringArray (jget nodeObj "predecessors") en.2.2
        ("nodes." ++ nodeKey ++ ".predecessors")
      let succs := asStringArray (jget nodeObj "successors") preds.2
        ("nodes." ++ nodeKey ++ ".successors")
      { nodeMap := setAdj en.2.1 id preds.1 succs.1
        aliasMap := am3
        warnings := succs.2 }

/-- `mergeUnique` from flow-map.ts: deduplicated union of the given lists,
skipping absent lists and falsy (empty) items, in first-occurrence order
(a JS `Set` preserves insertion order). -/
def mergeUnique (lists : List (Option (List String))) : List String :=
  ((lists.filterMap id).flatten.filter (fun s => s.length > 0)).foldl
    (fun acc s => if acc.contains s then acc else acc ++ [s]) []

/-- Body of the `for (const dataset of datasets)` loop. -/
def addDatasetNode (st : BuildState) (dataset : String) : BuildState :=
  { st with
    nodeMap := upsertNode st.nodeMap
      { id := dataset, kind := .dataset, name := some dataset }
    aliasMap := addAlias st.aliasMap (some dataset) dataset }

/-- Body of the `for (const recipe of recipes)` loop. -/
def addRecipeNode (st : BuildState) (recipe : String) : BuildState :=
  { st with
    nodeMap := upsertNode st.nodeMap
      { id := recipe, kind := .recipe, name := some recipe }
    aliasMap := addAlias st.aliasMap (some recipe) recipe }

/-- Body of the `for (const folder of folders)` loop. -/
def addFolderNode (options : NormalizeFlowGraphOptions) (st : BuildState)
    (folder : String) : BuildState :=
  { st with
    nodeMap := upsertNode st.nodeMap
      { id := folder, kind := .folder,
        name := some ((lookupName options.folderNamesById folder).getD folder) }
    aliasMap := addAlias st.aliasMap (some folder) folder }

/-- The enumeration-merging phase of `normalizeFlowGraph` (datasets,
recipes, folders). -/
def mergeEnumerations (options : NormalizeFlowGraphOptions)
    (root : List (String × JVal)) (st : BuildState) : BuildState :=
  let ds := asStringArray (jget root "datasets") st.warnings "datasets"
  let datasets := mergeUnique [some ds.1, options.allDatasetNames]
  let st1 := datasets.foldl addDatasetNode { st with warnings := ds.2 }
  let rc := asStringArray (jget root "recipes") st1.warnings "recipes"
  let recipes := mergeUnique [some rc.1, options.allRecipeNames]
  let st2 := recipes.foldl addRecipeNode { st1 with warnings := rc.2 }
  let fd := asStringArray (jget root "folders") st2.warnings "folders"
  let folders := mergeUnique [some fd.1, options.allFolderIds]
  folders.foldl (addFolderNode options) { st2 with warnings := fd.2 }

/-- The best-effort rename pass over folder-kind nodes. -/
def renameFolders (options : NormalizeFlowGraphOptions) (m : List InternalNode) :
    List InternalNode :=
  m.map (fun node =>
    if node.kind = .folder then
      match lookupName options.folderNamesById node.id with
      | some friendlyName =>
          if !truthyS node.name || node.name == some node.id then
            { node with name := some friendlyName }
          else node
      | none => node
    else node)

/-- Warning for a `raw.nodes` field that is present but not an object. -/
def skippedNodesFieldWarning : String :=
  "Skipped \"nodes\" because it was not an object."

/-- Phases 1-4 of `normalizeFlowGraph` on an object input: the node loop,
the enumeration merges and the folder rename pass, producing the builder
state just before edge resolution. -/
def preEdgeState (options : NormalizeFlowGraphOptions)
    (root : List (String × JVal)) : BuildState :=
  let w0 : List String :=
    match jget root "nodes" with
    | none => []
    | some v => if (asRecord (some v)).isSome then [] else [skippedNodesFieldWarning]
  let entries := (asRecord (jget root "nodes")).getD []
  let st1 := entries.foldl (processRawNode options)
    { nodeMap := [], aliasMap := [], warnings := w0 }
  let st2 := mergeEnumerations options root st1
  { st2 with nodeMap := renameFolders options st2.nodeMap }

/-- State of the edge-resolution phase: the (still growing) node map, the
`edgeMap` keyed by `from::to` strings, and the warnings. -/
structure EdgeState where
  nodeMap : List InternalNode
  edgeMap : List (String × NormalizedFlowEdge)
  warnings : List String

/-- `Map.set` for the edge map. -/
def setEdge : List (String × NormalizedFlowEdge) → String → NormalizedFlowEdge →
    List (String × NormalizedFlowEdge)
  | [], key, e => [(key, e)]
  | (k, old) :: rest, key, e =>
      if k == key then (key, e) :: rest else (k, old) :: setEdge rest key e

/-- The `edgeMap.get`/`edgeMap.set` step of `addEdge`: keep at most one
edge per key, preferring the higher-ranked relation. -/
def updateEdgeMap (em : List (String × NormalizedFlowEdge)) (key : String)
    (e : NormalizedFlowEdge) : List (String × NormalizedFlowEdge) :=
  match (em.find? (fun p => p.1 == key)).map (·.2) with
  | none => setEdge em key e
  | some existing =>
      if relationRank e.relation > relationRank existing.relation then
        setEdge em key e
      else em

/-- `addEdge` from flow-map.ts. -/
def addEdge (am : List (String × String)) (es : EdgeState) (fromRef toRef : String) :
    EdgeState :=
  let f := resolveAlias am fromRef
  let t := resolveAlias am toRef
  let enF := ensureNode es.nodeMap es.warnings f
  let enT := ensureNode enF.2.1 enF.2.2 t
  let relation := inferRelation enF.1.kind enT.1.kind
  let key := f ++ "::" ++ t
  { nodeMap := enT.2.1
    edgeMap := updateEdgeMap es.edgeMap key ⟨f, t, relation⟩
    warnings := enT.2.2 }

/-- The reference pairs emitted by the two adjacency loops, in emission
order: for every node of the map, `predecessor → node.id` for each
predecessor, then `node.id → successor` for each successor. -/
def emittedRefPairs (m : List InternalNode) : List (String × String) :=
  m.foldl
    (fun acc node =>
      acc ++ node.predecessors.map (fun p => (p, node.id))
          ++ node.successors.map (fun s => (node.id, s)))
    []

/-- The edge-resolution loop of `normalizeFlowGraph`, linearized: the source
iterates the live `nodeMap` while `ensureNode` may append placeholders to
it, but every placeholder has empty adjacency lists and so contributes no
`addEdge` call; folding `addEdge` over the reference pairs of the snapshot
is therefore the same computation. -/
def buildEdges (am : List (String × String)) (m : List InternalNode)
    (warnings : List String) : EdgeState :=
  (emittedRefPairs m).foldl (fun es p => addEdge am es p.1 p.2)
    { nodeMap := m, edgeMap := [], warnings := warnings }

/-- Lexicographic (code-point) order on char lists: the model of a negative
`localeCompare` result. -/
def charListLt : List Char → List Char → Bool
  | [], [] => false
  | [], _ :: _ => true
  | _ :: _, [] => false
  | a :: as, b :: bs =>
      if a.toNat < b.toNat then true
      else if b.toNat < a.toNat then false
      else charListLt as bs

/-- `a.localeCompare(b) < 0` in the code-point model. -/
def strLt (a b : String) : Bool := charListLt a.data b.data

/-- `a.localeCompare(b) <= 0` in the code-point model. -/
def strLe (a b : String) : Bool := !strLt b a

/-- The comparator `(a, b) => a.id.localeCompare(b.id)` used to sort nodes,
as the relation "comparator result ≤ 0". -/
def nodeLe (a b : NormalizedFlowNode) : Prop := strLe a.id b.id = true

instance : DecidableRel nodeLe := fun a b => instDecidableEqBool (strLe a.id b.id) true

/-- The serialized relation names compared by the edge comparator. -/
def relationStr : FlowEdgeRelation → String
  | .reads => "reads"
  | .writes => "writes"
  | .depends_on => "depends_on"
  | .unknown => "unknown"

/-- The `(from, to, relation)` edge comparator of `normalizeFlowGraph`, as
the relation "comparator result ≤ 0". -/
def edgeLeB (a b : NormalizedFlowEdge) : Bool :=
  if a.from' = b.from' then
    if a.to' = b.to' then strLe (relationStr a.relation) (relationStr b.relation)
    else strLe a.to' b.to'
  else strLe a.from' b.from'

def edgeLe (a b : NormalizedFlowEdge) : Prop := edgeLeB a b = true

instance : DecidableRel edgeLe := fun a b => instDecidableEqBool (edgeLeB a b) true

/-- The plain string comparator `(a, b) => a.localeCompare(b)` used to sort
the root/leaf id lists. -/
def strLeP (a b : String) : Prop := strLe a b = true

instance : DecidableRel strLeP := fun a b => instDecidableEqBool (strLe a b) true

/-- Degree-map lookup: `map.get(k) ?? 0`. -/
def lookupCount (m : List (String × Nat)) (k : String) : Nat :=
  ((m.find? (fun p => p.1 == k)).map (·.2)).getD 0

/-- `map.set(k, (map.get(k) ?? 0) + 1)`: bump the first entry with the key
in place, otherwise append a fresh entry. -/
def bumpDegree : List (String × Nat) → String → List (String × Nat)
  | [], k => [(k, 1)]
  | (a, v) :: rest, k =>
      if a == k then (a, v + 1) :: rest else (a, v) :: bumpDegree rest k

/-- `computeRootsAndLeaves` from register-tool.test.ts; `normalizeFlowGraph`
inlines the identical computation (degree maps over the final edges, then
the in-degree-0 and out-degree-0 ids, each sorted). -/
def computeRootsAndLeaves (nodes : List NormalizedFlowNode)
    (edges : List NormalizedFlowEdge) : List String × List String :=
  let init : List (String × Nat) := nodes.map (fun n => (n.id, 0))
  let inDegree := edges.foldl (fun m e => bumpDegree m e.to') init
  let outDegree := edges.foldl (fun m e => bumpDegree m e.from') init
  let roots := ((nodes.filter
    (fun n => lookupCount inDegree n.id == 0)).map (·.id)).insertionSort strLeP
  let leaves := ((nodes.filter
    (fun n => lookupCount outDegree n.id == 0)).map (·.id)).insertionSort strLeP
  (roots, leaves)

/-- Projection of an `InternalNode` to its public shape (the `.map` step
before sorting). -/
def toNormalizedNode (node : InternalNode) : NormalizedFlowNode :=
  { id := node.id, kind := node.kind, name := node.name,
    subtype := node.subtype, connection := node.connection }

/-- Final assembly: roots/leaves and stats derived from the given
(sorted) nodes and edges. -/
def assembleFlowMap (projectKey : String) (nodes : List NormalizedFlowNode)
    (edges : List NormalizedFlowEdge) (warnings : List String) : NormalizedFlowMap :=
  let rl := computeRootsAndLeaves nodes edges
  { projectKey := projectKey
    nodes := nodes
    edges := edges
    stats :=
      { nodeCount := nodes.length
        edgeCount := edges.length
        datasets := (nodes.filter (fun n => n.kind == .dataset)).length
        recipes := (nodes.filter (fun n => n.kind == .recipe)).length
        roots := rl.1.length
        leaves := rl.2.length }
    roots := rl.1
    leaves := rl.2
    warnings := warnings }

/-- The fatal-shaped warning of `normalizeFlowGraph`. -/
def notAnObjectWarning : String := "Flow graph response was not an object."

/-- The empty result returned when the input does not narrow to a record. -/
def emptyFlowMap (projectKey : String) : NormalizedFlowMap :=
  { projectKey := projectKey
    nodes := []
    edges := []
    stats := { nodeCount := 0, edgeCount := 0, datasets := 0, recipes := 0,
               roots := 0, leaves := 0 }
    roots := []
    leaves := []
    warnings := [notAnObjectWarning] }

/-- The edge-phase state reached by `normalizeFlowGraph` on an object input. -/
def finalEdgeState (options : NormalizeFlowGraphOptions)
    (root : List (String × JVal)) : EdgeState :=
  let st := preEdgeState options root
  buildEdges st.aliasMap st.nodeMap st.warnings

/-- `normalizeFlowGraph` from flow-map.ts. -/
def normalizeFlowGraph (raw : Option JVal) (projectKey : String)
    (options : NormalizeFlowGraphOptions := {}) : NormalizedFlowMap :=
  match asRecord raw with
  | none => emptyFlowMap projectKey
  | some root =>
      let es := finalEdgeState options root
      let nodes := (es.nodeMap.map toNormalizedNode).insertionSort nodeLe
      let edges := (es.edgeMap.map (·.2)).insertionSort edgeLe
      assembleFlowMap projectKey nodes edges es.warnings

/-- `FlowMapTruncationSummary` from register-tool.test.ts (`null` caps are
`none`). -/
structure FlowMapTruncationSummary where
  truncated : Bool
  maxNodes : Option Nat
  maxEdges : Option Nat
  nodeCountBefore : Nat
  nodeCountAfter : Nat
  edgeCountBefore : Nat
  edgeCountAfter : Nat
deriving DecidableEq, Repr

/-- The warning appended by `truncateFlowMap` when it actually shrank the
map. -/
def truncatedWarning (nodeCountAfter nodeCountBefore edgeCountAfter edgeCountBefore : Nat) :
    String :=
  "Flow map truncated (nodes " ++ toString nodeCountAfter ++ "/" ++
    toString nodeCountBefore ++ ", edges " ++ toString edgeCountAfter ++ "/" ++
    toString edgeCountBefore ++ ")."

/-- `truncateFlowMap` from register-tool.test.ts. -/
def truncateFlowMap (normalized : NormalizedFlowMap)
    (maxNodes maxEdges : Option Nat) : NormalizedFlowMap × FlowMapTruncationSummary :=
  let nodes := match maxNodes with
    | none => normalized.nodes
    | some n => normalized.nodes.take n
  let nodeIds := nodes.map (·.id)
  let edgesWithinNodes := normalized.edges.filter
    (fun e => nodeIds.contains e.from' && nodeIds.contains e.to')
  let edges := match maxEdges with
    | none => edgesWithinNodes
    | some n => edgesWithinNodes.take n
  let rl := computeRootsAndLeaves nodes edges
  let truncated :=
    nodes.length < normalized.nodes.length || edges.length < normalized.edges.length
  let truncation : FlowMapTruncationSummary :=
    { truncated := truncated
      maxNodes := maxNodes
      maxEdges := maxEdges
      nodeCountBefore := normalized.nodes.length
      nodeCountAfter := nodes.length
      edgeCountBefore := normalized.edges.length
      edgeCountAfter := edges.length }
  let warnings :=
    if truncated then
      normalized.warnings ++
        [truncatedWarning nodes.length normalized.nodes.length
          edges.length normalized.edges.length]
    else normalized.warnings
  ({ normalized with
      nodes := nodes
      edges := edges
      roots := rl.1
      leaves := rl.2
      warnings := warnings
      stats :=
        { nodeCount := nodes.length
          edgeCount := edges.length
          datasets := (nodes.filter (fun n => n.kind == .dataset)).length
          recipes := (nodes.filter (fun n => n.kind == .recipe)).length
          roots := rl.1.length
          leaves := rl.2.length } },
    truncation)

/-! ### Order theory for the comparator model -/

theorem charListLt_irrefl : ∀ l : List Char, charListLt l l = false
  | [] => rfl
  | a :: as => by
      simp only [charListLt, lt_irrefl, if_false, if_neg (lt_irrefl a.toNat)]
      exact charListLt_irrefl as

theorem charListLt_trans : ∀ {a b c : List Char},
    charListLt a b = true → charListLt b c = true → charListLt a c = true
  | [], [], _ :: _, _, _ => rfl
  | [], _ :: _, _ :: _, _, _ => rfl
  | a :: as, b :: bs, c :: cs, hab, hbc => by
      simp only [charListLt] at hab hbc ⊢
      by_cases h1 : a.toNat < b.toNat
      · by_cases h2 : b.toNat < c.toNat
        · simp [Nat.lt_trans h1 h2]
        · simp only [if_pos h1] at hab
          simp only [if_neg h2] at hbc
          by_cases h3 : c.toNat < b.toNat
          · simp only [if_pos h3] at hbc; exact absurd hbc (by simp)
          · have hbc' : b.toNat = c.toNat := Nat.le_antisymm (Nat.le_of_not_lt h3) (Nat.le_of_not_lt h2)
            simp [hbc' ▸ h1]
      · by_cases h1' : b.toNat < a.toNat
        · simp only [if_neg h1, if_pos h1'] at hab
          exact absurd hab (by simp)
        · have hab' : a.toNat = b.toNat := Nat.le_antisymm (Nat.le_of_not_lt h1') (Nat.le_of_not_lt h1)
          simp only [if_neg h1, if_neg h1'] at hab
          by_cases h2 : b.toNat < c.toNat
          · simp [hab' ▸ h2]
          · by_cases h3 : c.toNat < b.toNat
            · simp only [if_neg h2, if_pos h3] at hbc
              exact absurd hbc (by simp)
            · simp only [if_neg h2, if_neg h3] at hbc
              have h2' : ¬ a.toNat < c.toNat := hab' ▸ h2
              have h3' : ¬ c.toNat < a.toNat := hab' ▸ h3
              simp only [if_neg h2', if_neg h3']
              exact charListLt_trans hab hbc

theorem charListLt_antisymm : ∀ {a b : List Char},
    charListLt a b = false → charListLt b a = false → a = b
  | [], [], _, _ => rfl
  | [], _ :: _, h, _ => by simp [charListLt] at h
  | _ :: _, [], _, h => by simp [charListLt] at h
  | a :: as, b :: bs, hab, hba => by
      simp only [charListLt] at hab hba
      by_cases h1 : a.toNat < b.toNat
      · simp [h1] at hab
      · by_cases h2 : b.toNat < a.toNat
        · simp [h2] at hba
        · have hv : a.toNat = b.toNat := Nat.le_antisymm (Nat.le_of_not_lt h2) (Nat.le_of_not_lt h1)
          have hc : a = b := Char.ext (UInt32.ext hv)
          simp only [if_neg h1, if_neg h2] at hab
          simp only [if_neg h2, if_neg h1] at hba
          exact hc ▸ congrArg (a :: ·) (charListLt_antisymm hab hba)

theorem charListLt_asymm {a b : List Char} (h : charListLt a b = true) :
    charListLt b a = false := by
  by_contra hba
  have hba' : charListLt b a = true := by
    cases hcl : charListLt b a
    · exact absurd hcl hba
    · rfl
  have := charListLt_trans h hba'
  rw [charListLt_irrefl] at this
  exact Bool.false_ne_true this

theorem strLe_total (a b : String) : strLe a b = true ∨ strLe b a = true := by
  by_cases h : charListLt b.data a.data = true
  · right
    simpa [strLe, strLt] using charListLt_asymm h
  · left
    simp only [strLe, strLt, Bool.not_eq_true']
    exact Bool.not_eq_true _ ▸ h

theorem strLe_antisymm {a b : String} (hab : strLe a b = true) (hba : strLe b a = true) :
    a = b := by
  simp only [strLe, strLt, Bool.not_eq_true'] at hab hba
  exact String.ext (charListLt_antisymm hba hab)

theorem strLe_trans {a b c : String} (hab : strLe a b = true) (hbc : strLe b c = true) :
    strLe a c = true := by
  simp only [strLe, strLt, Bool.not_eq_true'] at hab hbc ⊢
  by_contra hca
  have hca' : charListLt c.data a.data = true := by
    cases h : charListLt c.data a.data
    · exact absurd h hca
    · rfl
  by_cases h1 : charListLt a.data b.data = true
  · have := charListLt_trans hca' h1
    rw [this] at hbc
    exact Bool.noConfusion hbc
  · have h1' : charListLt a.data b.data = false := by
      cases h : charListLt a.data b.data
      · rfl
      · exact absurd h h1
    have hab' : a = b := String.ext (charListLt_antisymm h1' hab)
    rw [hab'] at hca'
    rw [hca'] at hbc
    exact absurd hbc (by simp)

theorem strLeP_trans : ∀ (a b c : String), strLeP a b → strLeP b c → strLeP a c :=
  fun _ _ _ hab hbc => strLe_trans hab hbc

theorem strLeP_total : ∀ (a b : String), strLeP a b ∨ strLeP b a :=
  fun a b => strLe_total a b

theorem nodeLe_trans : ∀ (a b c : NormalizedFlowNode), nodeLe a b → nodeLe b c → nodeLe a c :=
  fun _ _ _ hab hbc => strLe_trans hab hbc

theorem nodeLe_total : ∀ (a b : NormalizedFlowNode), nodeLe a b ∨ nodeLe b a :=
  fun a b => strLe_total a.id b.id

theorem strLe_refl (a : String) : strLe a a = true := by
  simp only [strLe, strLt, Bool.not_eq_true']
  exact charListLt_irrefl a.data

theorem edgeLe_trans : ∀ (a b c : NormalizedFlowEdge), edgeLe a b → edgeLe b c → edgeLe a c := by
  intro a b c hab hbc
  unfold edgeLe edgeLeB at hab hbc ⊢
  by_cases hf1 : a.from' = b.from' <;> by_cases hf2 : b.from' = c.from'
  · rw [if_pos hf1] at hab
    rw [if_pos hf2] at hbc
    rw [if_pos (hf1.trans hf2)]
    by_cases ht1 : a.to' = b.to' <;> by_cases ht2 : b.to' = c.to'
    · rw [if_pos ht1] at hab
      rw [if_pos ht2] at hbc
      rw [if_pos (ht1.trans ht2)]
      exact strLe_trans hab hbc
    · rw [if_pos ht1] at hab
      rw [if_neg ht2] at hbc
      rw [if_neg (ht1 ▸ ht2)]
      exact ht1 ▸ hbc
    · rw [if_neg ht1] at hab
      rw [if_pos ht2] at hbc
      rw [if_neg (ht2 ▸ ht1)]
      exact ht2 ▸ hab
    · rw [if_neg ht1] at hab
      rw [if_neg ht2] at hbc
      by_cases ht3 : a.to' = c.to'
      · exact absurd (strLe_antisymm hab (ht3 ▸ hbc)) ht1
      · rw [if_neg ht3]
        exact strLe_trans hab hbc
  · rw [if_pos hf1] at hab
    rw [if_neg hf2] at hbc
    rw [if_neg (hf1 ▸ hf2)]
    exact hf1 ▸ hbc
  · rw [if_neg hf1] at hab
    rw [if_pos hf2] at hbc
    rw [if_neg (hf2 ▸ hf1)]
    exact hf2 ▸ hab
  · rw [if_neg hf1] at hab
    rw [if_neg hf2] at hbc
    by_cases hf3 : a.from' = c.from'
    · exact absurd (strLe_antisymm hab (hf3 ▸ hbc)) hf1
    · rw [if_neg hf3]
      exact strLe_trans hab hbc

theorem edgeLe_total : ∀ (a b : NormalizedFlowEdge), edgeLe a b ∨ edgeLe b a := by
  intro a b
  unfold edgeLe edgeLeB
  by_cases hf : a.from' = b.from'
  · rw [if_pos hf, if_pos hf.symm]
    by_cases ht : a.to' = b.to'
    · rw [if_pos ht, if_pos ht.symm]
      exact strLe_total _ _
    · rw [if_neg ht, if_neg (fun h => ht h.symm)]
      exact strLe_total _ _
  · rw [if_neg hf, if_neg (fun h => hf h.symm)]
    exact strLe_total _ _

/-! ### Claims about `truncateFlowMap` (C1, C9) -/

/-- Endpoints of an edge retained by the both-endpoints-survive filter are
ids of retained nodes. -/
theorem truncEndpointsMem (edges : List NormalizedFlowEdge) (ids : List String)
    (e : NormalizedFlowEdge)
    (he : e ∈ edges.filter (fun e => ids.contains e.from' && ids.contains e.to')) :
    e.from' ∈ ids ∧ e.to' ∈ ids := by
  have h := List.of_mem_filter he
  simp only [Bool.and_eq_true] at h
  exact ⟨List.mem_of_elem_eq_true h.1, List.mem_of_elem_eq_true h.2⟩

/-- C1: for every normalized map and caps `N ≥ 1`, `M ≥ 1` (or undefined),
`truncate` retains the first `N` entries of the node list (all when the cap
is undefined) and the first `M` edges of the original edge list filtered to
edges whose endpoints both survive; every retained edge's endpoints are ids
of retained nodes, `nodes.length ≤ N`, `edges.length ≤ M`, the summary's
`truncated` flag is true iff the node or edge count shrank, and the
before/after counts are reported accordingly. -/
theorem truncateFlowMap_correct (m : NormalizedFlowMap) (maxNodes maxEdges : Option Nat)
    (hN : ∀ n, maxNodes = some n → 1 ≤ n) (hM : ∀ k, maxEdges = some k → 1 ≤ k) :
    (maxNodes = none → (truncateFlowMap m maxNodes maxEdges).1.nodes = m.nodes)
    ∧ (∀ n, maxNodes = some n →
        (truncateFlowMap m maxNodes maxEdges).1.nodes = m.nodes.take n)
    ∧ (maxEdges = none → (truncateFlowMap m maxNodes maxEdges).1.edges =
        m.edges.filter (fun e =>
          (((truncateFlowMap m maxNodes maxEdges).1.nodes.map (·.id)).contains e.from' &&
           ((truncateFlowMap m maxNodes maxEdges).1.nodes.map (·.id)).contains e.to')))
    ∧ (∀ k, maxEdges = some k →
        (truncateFlowMap m maxNodes maxEdges).1.edges =
          (m.edges.filter (fun e =>
            (((truncateFlowMap m maxNodes maxEdges).1.nodes.map (·.id)).contains e.from' &&
             ((truncateFlowMap m maxNodes maxEdges).1.nodes.map (·.id)).contains e.to'))).take k)
    ∧ (∀ e ∈ (truncateFlowMap m maxNodes maxEdges).1.edges,
        e.from' ∈ (truncateFlowMap m maxNodes maxEdges).1.nodes.map (·.id)
        ∧ e.to' ∈ (truncateFlowMap m maxNodes maxEdges).1.nodes.map (·.id))
    ∧ (∀ n, maxNodes = some n → (truncateFlowMap m maxNodes maxEdges).1.nodes.length ≤ n)
    ∧ (∀ k, maxEdges = some k → (truncateFlowMap m maxNodes maxEdges).1.edges.length ≤ k)
    ∧ ((truncateFlowMap m maxNodes maxEdges).2.truncated = true ↔
        ((truncateFlowMap m maxNodes maxEdges).1.nodes.length < m.nodes.length
         ∨ (truncateFlowMap m maxNodes maxEdges).1.edges.length < m.edges.length))
    ∧ (truncateFlowMap m maxNodes maxEdges).2.nodeCountBefore = m.nodes.length
    ∧ (truncateFlowMap m maxNodes maxEdges).2.nodeCountAfter =
        (truncateFlowMap m maxNodes maxEdges).1.nodes.length
    ∧ (truncateFlowMap m maxNodes maxEdges).2.edgeCountBefore = m.edges.length
    ∧ (truncateFlowMap m maxNodes maxEdges).2.edgeCountAfter =
        (truncateFlowMap m maxNodes maxEdges).1.edges.length := by
  clear hN hM
  refine ⟨?_, ?_, ?_, ?_, ?_, ?_, ?_, ?_, ?_, ?_, ?_, ?_⟩ <;>
    cases maxNodes <;> cases maxEdges <;>
    simp only [truncateFlowMap, Option.some.injEq, forall_eq', reduceCtorEq,
      false_implies, implies_true, true_and, and_true, List.length_take,
      Bool.or_eq_true, decide_eq_true_eq]
  case _ =>
    exact fun e he => truncEndpointsMem _ _ _ he
  case _ =>
    exact fun e he => truncEndpointsMem _ _ _ (List.take_subset _ _ he)
  case _ =>
    exact fun e he => truncEndpointsMem _ _ _ he
  case _ =>
    exact fun e he => truncEndpointsMem _ _ _ (List.take_subset _ _ he)
  all_goals first
    | exact Nat.min_le_left _ _
    | rfl

/-- A small concrete normalized map used by witnesses. -/
def exampleMap : NormalizedFlowMap :=
  { projectKey := "P"
    nodes := [{ id := "a", kind := .dataset }, { id := "b", kind := .recipe }]
    edges := [{ from' := "a", to' := "b", relation := .reads }]
    stats := { nodeCount := 2, edgeCount := 1, datasets := 1, recipes := 1,
               roots := 1, leaves := 1 }
    roots := ["a"]
    leaves := ["b"]
    warnings := [] }

/-- Witness for C1 at a concrete map with caps 1/1. -/
theorem truncateFlowMap_correct_witness :
    (truncateFlowMap exampleMap (some 1) (some 1)).2.nodeCountBefore =
      exampleMap.nodes.length ∧
    (truncateFlowMap exampleMap (some 1) (some 1)).1.nodes.length ≤ 1 :=
  ⟨(truncateFlowMap_correct exampleMap (some 1) (some 1)
      (fun _ h => by cases h; exact Nat.le_refl 1)
      (fun _ h => by cases h; exact Nat.le_refl 1)).2.2.2.2.2.2.2.2.1,
   (truncateFlowMap_correct exampleMap (some 1) (some 1)
      (fun _ h => by cases h; exact Nat.le_refl 1)
      (fun _ h => by cases h; exact Nat.le_refl 1)).2.2.2.2.2.1 1 rfl⟩

/-- C9: `truncate` leaves `projectKey` unchanged and the output warnings are
the input warnings with exactly one warning appended iff the node or edge
count shrank (and unchanged otherwise) — in particular the input warnings
are a prefix and none is dropped or modified. -/
theorem truncateFlowMap_frame (m : NormalizedFlowMap) (maxNodes maxEdges : Option Nat) :
    (truncateFlowMap m maxNodes maxEdges).1.projectKey = m.projectKey
    ∧ (truncateFlowMap m maxNodes maxEdges).1.warnings =
        m.warnings ++
          (if (truncateFlowMap m maxNodes maxEdges).1.nodes.length < m.nodes.length
              ∨ (truncateFlowMap m maxNodes maxEdges).1.edges.length < m.edges.length
           then [truncatedWarning (truncateFlowMap m maxNodes maxEdges).1.nodes.length
                  m.nodes.length (truncateFlowMap m maxNodes maxEdges).1.edges.length
                  m.edges.length]
           else []) := by
  constructor
  · cases maxNodes <;> cases maxEdges <;> rfl
  · cases maxNodes <;> cases maxEdges <;>
      simp only [truncateFlowMap, Bool.or_eq_true, decide_eq_true_eq] <;>
      split <;> simp

/-! ### Claim C8 about `asStringArray` (corrected) -/

/-- The item-accumulation step of `asStringArray`, characterized: retained
items are the non-empty strings in order, and one `skippedItemWarning` is
appended per entry that is not a string or is an empty string. -/
theorem asStringArray_foldl (ctx : String) : ∀ (items : List JVal) (acc : List String × List String),
    items.foldl
      (fun acc item =>
        match item with
        | .str s =>
            if s.length > 0 then (acc.1 ++ [s], acc.2)
            else (acc.1, acc.2 ++ [skippedItemWarning ctx])
        | _ => (acc.1, acc.2 ++ [skippedItemWarning ctx]))
      acc
    = (acc.1 ++ items.filterMap (fun item =>
         match item with
         | .str s => if s.length > 0 then some s else none
         | _ => none),
       acc.2 ++ List.replicate
         (items.countP (fun item =>
            match item with
            | .str s => !(decide (s.length > 0))
            | _ => true)) (skippedItemWarning ctx))
  | [], acc => by simp
  | item :: items, acc => by
      have ih := asStringArray_foldl ctx items
      cases item with
      | str s =>
          by_cases h : s.length > 0
          · simp only [List.foldl_cons, if_pos h, List.filterMap_cons, List.countP_cons, ih]
            have hp : (!decide (s.length > 0)) = false := by simp [h]
            simp [hp, h, List.append_assoc]
          · simp only [List.foldl_cons, if_neg h, List.filterMap_cons, List.countP_cons, ih]
            have hp : (!decide (s.length > 0)) = true := by simp [h]
            simp [hp, h, List.replicate_succ, List.append_assoc]
      | num n => simp [ih, List.replicate_succ, List.append_assoc]
      | bool b => simp [ih, List.replicate_succ, List.append_assoc]
      | null => simp [ih, List.replicate_succ, List.append_assoc]
      | arr its => simp [ih, List.replicate_succ, List.append_assoc]
      | obj fs => simp [ih, List.replicate_succ, List.append_assoc]

/-- Counterexample to C8 as stated: on the array `[""]` the entry is a
string, so the claim predicts no warning, but the code appends one; and on
`undefined` (not an array) the claim predicts exactly one warning, but the
code appends none. -/
theorem asStringArray_claim_counterexample :
    (asStringArray (some (.arr [.str ""])) [] "ctx").2 ≠ []
    ∧ (asStringArray none [] "ctx").2 = [] :=
  ⟨by decide, rfl⟩

/-- C8 (amended): `asStringArray` never throws (it is a total function);
on `undefined` it returns the empty list without appending any warning; on
a defined non-array value it appends exactly one warning naming the context
and returns the empty list; on an array it returns exactly the items that
are non-empty strings, in their original order, and appends exactly one
warning per skipped entry — entries that are not strings or are empty
strings — and no warnings for the retained entries. -/
theorem asStringArray_spec (ws : List String) (ctx : String) :
    (asStringArray none ws ctx = ([], ws))
    ∧ (∀ items : List JVal,
        (asStringArray (some (.arr items)) ws ctx).1 =
          items.filterMap (fun item =>
            match item with
            | .str s => if s.length > 0 then some s else none
            | _ => none)
        ∧ (asStringArray (some (.arr items)) ws ctx).2 =
          ws ++ List.replicate
            (items.countP (fun item =>
              match item with
              | .str s => !(decide (s.length > 0))
              | _ => true)) (skippedItemWarning ctx))
    ∧ (∀ s, asStringArray (some (.str s)) ws ctx = ([], ws ++ [skippedArrayWarning ctx]))
    ∧ (∀ n, asStringArray (some (.num n)) ws ctx = ([], ws ++ [skippedArrayWarning ctx]))
    ∧ (∀ b, asStringArray (some (.bool b)) ws ctx = ([], ws ++ [skippedArrayWarning ctx]))
    ∧ (asStringArray (some .null) ws ctx = ([], ws ++ [skippedArrayWarning ctx]))
    ∧ (∀ fs, asStringArray (some (.obj fs)) ws ctx = ([], ws ++ [skippedArrayWarning ctx])) := by
  refine ⟨rfl, ?_, fun _ => rfl, fun _ => rfl, fun _ => rfl, rfl, fun _ => rfl⟩
  intro items
  have h := asStringArray_foldl ctx items ([], ws)
  constructor
  · show (items.foldl _ ([], ws)).1 = _
    rw [h]
    simp
  · show (items.foldl _ ([], ws)).2 = _
    rw [h]

/-! ### Claim C7 about the `upsertNode` merge rule -/

theorem strLengthPos {s : String} (h : s ≠ "") : s.length > 0 :=
  List.length_pos.mpr (fun hd => h (String.ext hd))

theorem truthyS_of_ne {o : Option String} (hne : o ≠ some "") :
    truthyS o = o.isSome := by
  cases o with
  | none => rfl
  | some s =>
      have : s ≠ "" := fun h => hne (h ▸ rfl)
      simp [truthyS, strLengthPos this]

theorem preferredKind_eq (c i : FlowNodeKind) :
    preferredKind c i = if c = .other ∧ i ≠ .other then i else c := by
  cases c <;> cases i <;> decide

/-- C7: upserting a node declaration onto an existing canonical node keeps
each of `name`, `subtype`, `connection` when the existing value is present
(non-empty) and takes the incoming value otherwise, while `kind` becomes the
incoming kind exactly when the existing kind is "other" and the incoming one
is not; in particular an existing dataset kind is never overwritten by an
incoming recipe kind.  (The emptiness hypotheses hold for every node the
builder constructs: `asString` never yields `""`.) -/
theorem upsertNode_merge (m : List InternalNode) (node : NodeDecl) (existing : InternalNode)
    (hfind : m.find? (fun x => x.id == node.id) = some existing)
    (h1 : existing.name ≠ some "") (h2 : existing.subtype ≠ some "")
    (h3 : existing.connection ≠ some "") (h4 : node.name ≠ some "")
    (h5 : node.subtype ≠ some "") (h6 : node.connection ≠ some "") :
    upsertNode m node = setNode m (mergeNode existing node)
    ∧ (mergeNode existing node).name =
        (if existing.name.isSome then existing.name else node.name)
    ∧ (mergeNode existing node).subtype =
        (if existing.subtype.isSome then existing.subtype else node.subtype)
    ∧ (mergeNode existing node).connection =
        (if existing.connection.isSome then existing.connection else node.connection)
    ∧ (mergeNode existing node).kind =
        (if existing.kind = .other ∧ node.kind ≠ .other then node.kind else existing.kind)
    ∧ (existing.kind = .dataset → node.kind = .recipe →
        (mergeNode existing node).kind = .dataset) := by
  refine ⟨by simp [upsertNode, hfind], ?_, ?_, ?_, ?_, ?_⟩
  · show (if !truthyS existing.name && truthyS node.name then node.name else existing.name) = _
    rw [truthyS_of_ne h1, truthyS_of_ne h4]
    cases existing.name <;> cases node.name <;> simp
  · show (if !truthyS existing.subtype && truthyS node.subtype then node.subtype else existing.subtype) = _
    rw [truthyS_of_ne h2, truthyS_of_ne h5]
    cases existing.subtype <;> cases node.subtype <;> simp
  · show (if !truthyS existing.connection && truthyS node.connection then node.connection else existing.connection) = _
    rw [truthyS_of_ne h3, truthyS_of_ne h6]
    cases existing.connection <;> cases node.connection <;> simp
  · show preferredKind existing.kind node.kind = _
    exact preferredKind_eq _ _
  · intro hd hr
    show preferredKind existing.kind node.kind = _
    rw [hd, hr]
    decide

/-- Witness for C7: a concrete dataset node merged with a recipe
declaration keeps its kind and its non-empty name. -/
theorem upsertNode_merge_witness :
    (mergeNode
      { id := "a", kind := .dataset, name := some "first", subtype := none,
        connection := none, predecessors := [], successors := [] }
      { id := "a", kind := .recipe, name := some "second", subtype := some "sub",
        connection := none }).name = some "first"
    ∧ (mergeNode
      { id := "a", kind := .dataset, name := some "first", subtype := none,
        connection := none, predecessors := [], successors := [] }
      { id := "a", kind := .recipe, name := some "second", subtype := some "sub",
        connection := none }).kind = .dataset := by
  have h := upsertNode_merge
    [{ id := "a", kind := .dataset, name := some "first", subtype := none,
       connection := none, predecessors := [], successors := [] }]
    { id := "a", kind := .recipe, name := some "second", subtype := some "sub",
      connection := none }
    { id := "a", kind := .dataset, name := some "first", subtype := none,
      connection := none, predecessors := [], successors := [] }
    (by decide) (by decide) (by decide) (by decide) (by decide) (by decide) (by decide)
  exact ⟨by rw [h.2.1]; rfl, h.2.2.2.2.2 rfl rfl⟩

/-! ### Claim C6: sorted output -/

/-- The ds1→r1→ds2→r2→ds3 chain of the spec, declared in scrambled input
order. -/
def chainInput : JVal := .obj [("nodes", .obj [
  ("r2", .obj [("type", .str "RECIPE"), ("successors", .arr [.str "ds3"])]),
  ("ds3", .obj [("type", .str "DATASET")]),
  ("r1", .obj [("type", .str "RECIPE"), ("successors", .arr [.str "ds2"])]),
  ("ds1", .obj [("type", .str "DATASET"), ("successors", .arr [.str "r1"])]),
  ("ds2", .obj [("type", .str "DATASET"), ("successors", .arr [.str "r2"])])])]

/-- C6: the output node list is sorted by id and the output edge list is
sorted by the `(from, to, relation)` triple (both in the lexicographic
code-point order modelling `localeCompare`); the scrambled ds/recipe chain
yields the node ids and edges of the spec in exactly that order. -/
theorem normalize_sorted :
    (∀ (raw : Option JVal) (pk : String) (opts : NormalizeFlowGraphOptions),
      List.Sorted nodeLe (normalizeFlowGraph raw pk opts).nodes
      ∧ List.Sorted edgeLe (normalizeFlowGraph raw pk opts).edges)
    ∧ (normalizeFlowGraph (some chainInput) "P").nodes.map (·.id) =
        ["ds1", "ds2", "ds3", "r1", "r2"]
    ∧ (normalizeFlowGraph (some chainInput) "P").edges =
        [⟨"ds1", "r1", .reads⟩, ⟨"ds2", "r2", .reads⟩,
         ⟨"r1", "ds2", .writes⟩, ⟨"r2", "ds3", .writes⟩] := by
  refine ⟨?_, by decide, by decide⟩
  intro raw pk opts
  cases h : asRecord raw with
  | none =>
      have he : normalizeFlowGraph raw pk opts = emptyFlowMap pk := by
        simp only [normalizeFlowGraph, h]
      rw [he]
      exact ⟨List.sorted_nil, List.sorted_nil⟩
  | some root =>
      have he : normalizeFlowGraph raw pk opts =
          assembleFlowMap pk
            (((finalEdgeState opts root).nodeMap.map toNormalizedNode).insertionSort nodeLe)
            (((finalEdgeState opts root).edgeMap.map (·.2)).insertionSort edgeLe)
            (finalEdgeState opts root).warnings := by
        simp only [normalizeFlowGraph, h]
      rw [he]
      constructor
      · exact @List.sorted_insertionSort _ nodeLe inferInstance ⟨nodeLe_total⟩
          ⟨fun _ _ _ => nodeLe_trans _ _ _⟩ _
      · exact @List.sorted_insertionSort _ edgeLe inferInstance ⟨edgeLe_total⟩
          ⟨fun _ _ _ => edgeLe_trans _ _ _⟩ _

/-! ### Claim C4: roots and leaves -/

theorem lookupCount_bumpDegree (m : List (String × Nat)) (k x : String) :
    lookupCount (bumpDegree m k) x = lookupCount m x + (if x = k then 1 else 0) := by
  induction m with
  | nil =>
      by_cases h : x = k
      · subst h; simp [bumpDegree, lookupCount]
      · have : (k == x) = false := by
          simp [beq_eq_false_iff_ne]
          exact fun hk => h hk.symm
        simp [bumpDegree, lookupCount, List.find?, this, h]
  | cons a rest ih =>
      obtain ⟨ak, av⟩ := a
      by_cases hk : ak = k
      · subst hk
        simp only [bumpDegree, beq_self_eq_true, if_true]
        by_cases hx : ak = x
        · subst hx
          simp [lookupCount, List.find?]
        · have hbx : (ak == x) = false := by simp [beq_eq_false_iff_ne, hx]
          have hxk : ¬ x = ak := fun hxx => hx hxx.symm
          simp [lookupCount, List.find?, hbx, hxk]
      · have hbk : (ak == k) = false := by simp [beq_eq_false_iff_ne, hk]
        simp only [bumpDegree, hbk, if_false]
        by_cases hx : ak = x
        · subst hx
          simp [lookupCount, List.find?, hk]
        · have hbx : (ak == x) = false := by simp [beq_eq_false_iff_ne, hx]
          simp only [lookupCount, List.find?, hbx] at ih ⊢
          exact ih

theorem lookupCount_degreeFold (f : NormalizedFlowEdge → String)
    (edges : List NormalizedFlowEdge) (init : List (String × Nat)) (x : String) :
    lookupCount (edges.foldl (fun m e => bumpDegree m (f e)) init) x
      = lookupCount init x + edges.countP (fun e => f e == x) := by
  induction edges generalizing init with
  | nil => simp
  | cons e rest ih =>
      simp only [List.foldl_cons, List.countP_cons, ih, lookupCount_bumpDegree]
      by_cases h : x = f e
      · subst h
        simp only [beq_self_eq_true, if_pos rfl, List.countP_cons_of_pos]
        omega
      · have : (f e == x) = false := by simp [beq_eq_false_iff_ne]; exact fun he => h he.symm
        simp [h, this]

theorem lookupCount_initZero (nodes : List NormalizedFlowNode) (x : String) :
    lookupCount (nodes.map (fun n => (n.id, 0))) x = 0 := by
  induction nodes with
  | nil => rfl
  | cons n rest ih =>
      by_cases h : n.id = x
      · simp [lookupCount, List.find?, h]
      · have : (n.id == x) = false := by simp [beq_eq_false_iff_ne, h]
        simp only [List.map_cons, lookupCount, List.find?, this] at ih ⊢
        exact ih

/-- Membership characterization of the root list produced by the shared
degree computation. -/
theorem mem_computeRoots (nodes : List NormalizedFlowNode)
    (edges : List NormalizedFlowEdge) (x : String) :
    x ∈ (computeRootsAndLeaves nodes edges).1 ↔
      ((∃ n ∈ nodes, n.id = x) ∧ ∀ e ∈ edges, e.to' ≠ x) := by
  unfold computeRootsAndLeaves
  rw [List.Perm.mem_iff (List.perm_insertionSort strLeP _)]
  simp only [List.mem_map, List.mem_filter]
  constructor
  · rintro ⟨n, ⟨hn, hdeg⟩, hid⟩
    rw [lookupCount_degreeFold (fun e => e.to'), lookupCount_initZero] at hdeg
    simp only [Nat.zero_add, beq_iff_eq, Nat.beq_eq_true_eq] at hdeg
    have hcount := List.countP_eq_zero.mp hdeg
    refine ⟨⟨n, hn, hid⟩, fun e he => ?_⟩
    have := hcount e he
    simp only [beq_iff_eq] at this
    exact fun hcontra => this (hid ▸ hcontra)
  · rintro ⟨⟨n, hn, hid⟩, hedges⟩
    refine ⟨n, ⟨hn, ?_⟩, hid⟩
    rw [lookupCount_degreeFold (fun e => e.to'), lookupCount_initZero]
    simp only [Nat.zero_add, Nat.beq_eq_true_eq]
    exact List.countP_eq_zero.mpr (fun e he => by
      simp only [beq_iff_eq, hid]
      exact hedges e he)

/-- Membership characterization of the leaf list. -/
theorem mem_computeLeaves (nodes : List NormalizedFlowNode)
    (edges : List NormalizedFlowEdge) (x : String) :
    x ∈ (computeRootsAndLeaves nodes edges).2 ↔
      ((∃ n ∈ nodes, n.id = x) ∧ ∀ e ∈ edges, e.from' ≠ x) := by
  unfold computeRootsAndLeaves
  rw [List.Perm.mem_iff (List.perm_insertionSort strLeP _)]
  simp only [List.mem_map, List.mem_filter]
  constructor
  · rintro ⟨n, ⟨hn, hdeg⟩, hid⟩
    rw [lookupCount_degreeFold (fun e => e.from'), lookupCount_initZero] at hdeg
    simp only [Nat.zero_add, beq_iff_eq, Nat.beq_eq_true_eq] at hdeg
    have hcount := List.countP_eq_zero.mp hdeg
    refine ⟨⟨n, hn, hid⟩, fun e he => ?_⟩
    have := hcount e he
    simp only [beq_iff_eq] at this
    exact fun hcontra => this (hid ▸ hcontra)
  · rintro ⟨⟨n, hn, hid⟩, hedges⟩
    refine ⟨n, ⟨hn, ?_⟩, hid⟩
    rw [lookupCount_degreeFold (fun e => e.from'), lookupCount_initZero]
    simp only [Nat.zero_add, Nat.beq_eq_true_eq]
    exact List.countP_eq_zero.mpr (fun e he => by
      simp only [beq_iff_eq, hid]
      exact hedges e he)

/-- The `roots`/`leaves` fields of `normalizeFlowGraph` are exactly the
shared degree computation applied to its `nodes`/`edges` fields. -/
theorem normalize_rootsLeaves_eq (raw : Option JVal) (pk : String)
    (opts : NormalizeFlowGraphOptions) :
    (normalizeFlowGraph raw pk opts).roots =
      (computeRootsAndLeaves (normalizeFlowGraph raw pk opts).nodes
        (normalizeFlowGraph raw pk opts).edges).1
    ∧ (normalizeFlowGraph raw pk opts).leaves =
      (computeRootsAndLeaves (normalizeFlowGraph raw pk opts).nodes
        (normalizeFlowGraph raw pk opts).edges).2 := by
  cases h : asRecord raw with
  | none => simp only [normalizeFlowGraph, h]; exact ⟨rfl, rfl⟩
  | some root => simp only [normalizeFlowGraph, h]; exact ⟨rfl, rfl⟩

/-- The pure cycle A→B→C→D→A of the spec. -/
def cycleInput : JVal := .obj [("nodes", .obj [
  ("A", .obj [("successors", .arr [.str "B"])]),
  ("B", .obj [("successors", .arr [.str "C"])]),
  ("C", .obj [("successors", .arr [.str "D"])]),
  ("D", .obj [("successors", .arr [.str "A"])])])]

/-- C4: a node id is in `roots` iff it is a node id and no output edge has
it as its `to` endpoint, and in `leaves` iff it is a node id and no output
edge has it as its `from` endpoint; on the pure cycle A→B→C→D→A both lists
are empty. -/
theorem normalize_roots_leaves :
    (∀ (raw : Option JVal) (pk : String) (opts : NormalizeFlowGraphOptions) (x : String),
      (x ∈ (normalizeFlowGraph raw pk opts).roots ↔
        ((∃ n ∈ (normalizeFlowGraph raw pk opts).nodes, n.id = x)
         ∧ ∀ e ∈ (normalizeFlowGraph raw pk opts).edges, e.to' ≠ x))
      ∧ (x ∈ (normalizeFlowGraph raw pk opts).leaves ↔
        ((∃ n ∈ (normalizeFlowGraph raw pk opts).nodes, n.id = x)
         ∧ ∀ e ∈ (normalizeFlowGraph raw pk opts).edges, e.from' ≠ x)))
    ∧ (normalizeFlowGraph (some cycleInput) "P").roots = []
    ∧ (normalizeFlowGraph (some cycleInput) "P").leaves = [] := by
  refine ⟨?_, by decide, by decide⟩
  intro raw pk opts x
  obtain ⟨hr, hl⟩ := normalize_rootsLeaves_eq raw pk opts
  rw [hr, hl, mem_computeRoots, mem_computeLeaves]
  exact ⟨Iff.rfl, Iff.rfl⟩

/-! ### Warning-shape lemmas (for C2 and C3) -/

/-- Heads of the fixed warning families.  Every warning emitted before the
edge phase starts with 'S' ("Skipped ..."), every placeholder warning with
'A' ("Added ..."), and the fatal-shaped warning with 'F' ("Flow ..."). -/
theorem head_placeholderWarning (x : String) :
    (placeholderWarning x).data.head? = some 'A' := by
  show ((("Added placeholder node for \"" ++ x) ++ "\" referenced by an edge.").data).head? = _
  rw [String.data_append, String.data_append]
  rfl

theorem head_skippedItemWarning (c : String) :
    (skippedItemWarning c).data.head? = some 'S' := by
  show ((("Skipped non-string item in \"" ++ c) ++ "\".").data).head? = _
  rw [String.data_append, String.data_append]
  rfl

theorem head_skippedArrayWarning (c : String) :
    (skippedArrayWarning c).data.head? = some 'S' := by
  show ((("Skipped non-array \"" ++ c) ++ "\" field.").data).head? = _
  rw [String.data_append, String.data_append]
  rfl

theorem head_skippedNodeWarning (c : String) :
    (skippedNodeWarning c).data.head? = some 'S' := by
  show ((("Skipped node \"" ++ c) ++ "\" because it was not an object.").data).head? = _
  rw [String.data_append, String.data_append]
  rfl

/-- Generic fold lemma: when every step only appends `P`-warnings, the whole
fold only appends `P`-warnings. -/
theorem foldl_warnings_extend {σ α : Type} (W : σ → List String) (f : σ → α → σ)
    (P : String → Prop)
    (h : ∀ st a, ∃ d, W (f st a) = W st ++ d ∧ ∀ w ∈ d, P w) :
    ∀ (l : List α) (st : σ), ∃ d, W (l.foldl f st) = W st ++ d ∧ ∀ w ∈ d, P w
  | [], st => ⟨[], by simp⟩
  | a :: l, st => by
      obtain ⟨d1, hd1, hp1⟩ := h st a
      obtain ⟨d2, hd2, hp2⟩ := foldl_warnings_extend W f P h l (f st a)
      refine ⟨d1 ++ d2, ?_, ?_⟩
      · simp only [List.foldl_cons, hd2, hd1, List.append_assoc]
      · intro w hw
        rcases List.mem_append.mp hw with h1 | h2
        · exact hp1 w h1
        · exact hp2 w h2

theorem asStringArray_warnS (v : Option JVal) (ws : List String) (c : String) :
    ∃ d, (asStringArray v ws c).2 = ws ++ d ∧ ∀ w ∈ d, w.data.head? = some 'S' := by
  match v with
  | none => exact ⟨[], by simp [asStringArray]⟩
  | some (.arr items) =>
      obtain ⟨-, h2⟩ := (asStringArray_spec ws c).2.1 items
      refine ⟨_, h2, fun w hw => ?_⟩
      rw [List.eq_of_mem_replicate hw]
      exact head_skippedItemWarning c
  | some (.str s) => exact ⟨[skippedArrayWarning c], rfl,
      fun w hw => by rw [List.eq_of_mem_singleton hw]; exact head_skippedArrayWarning c⟩
  | some (.num n) => exact ⟨[skippedArrayWarning c], rfl,
      fun w hw => by rw [List.eq_of_mem_singleton hw]; exact head_skippedArrayWarning c⟩
  | some (.bool b) => exact ⟨[skippedArrayWarning c], rfl,
      fun w hw => by rw [List.eq_of_mem_singleton hw]; exact head_skippedArrayWarning c⟩
  | some .null => exact ⟨[skippedArrayWarning c], rfl,
      fun w hw => by rw [List.eq_of_mem_singleton hw]; exact head_skippedArrayWarning c⟩
  | some (.obj fs) => exact ⟨[skippedArrayWarning c], rfl,
      fun w hw => by rw [List.eq_of_mem_singleton hw]; exact head_skippedArrayWarning c⟩

/-! ### Node-map association-list lemmas -/

theorem mem_ids_setNode (n : InternalNode) : ∀ (m : List InternalNode),
    n.id ∈ (setNode m n).map (·.id)
  | [] => by simp [setNode]
  | x :: rest => by
      by_cases h : x.id == n.id
      · simp [setNode, h]
      · have hb : (x.id == n.id) = false := by
          cases hx : x.id == n.id
          · rfl
          · exact absurd hx h
        simp only [setNode, hb, Bool.false_eq_true, if_false, List.map_cons, List.mem_cons]
        exact Or.inr (mem_ids_setNode n rest)

theorem mem_ids_upsertNode (m : List InternalNode) (node : NodeDecl) :
    node.id ∈ (upsertNode m node).map (·.id) := by
  unfold upsertNode
  cases h : m.find? (fun x => x.id == node.id) with
  | none => simp
  | some existing =>
      have hid : existing.id = node.id := by
        have := List.find?_some h
        exact beq_iff_eq.mp this
      have : (mergeNode existing node).id = node.id := hid
      rw [← this]
      exact mem_ids_setNode _ m

theorem find?_isSome_of_mem_ids {m : List InternalNode} {x : String}
    (h : x ∈ m.map (·.id)) : (m.find? (fun n => n.id == x)).isSome := by
  rw [List.find?_isSome]
  obtain ⟨n, hn, hid⟩ := List.mem_map.mp h
  exact ⟨n, hn, by simp [hid]⟩

theorem ensureNode_of_mem {m : List InternalNode} (ws : List String) {x : String}
    (h : x ∈ m.map (·.id)) :
    (ensureNode m ws x).2.1 = m ∧ (ensureNode m ws x).2.2 = ws := by
  unfold ensureNode
  obtain ⟨n, hn⟩ := Option.isSome_iff_exists.mp (find?_isSome_of_mem_ids h)
  rw [hn]
  exact ⟨rfl, rfl⟩

theorem ensureNode_warnings (m : List InternalNode) (ws : List String) (x : String) :
    ∃ d, (ensureNode m ws x).2.2 = ws ++ d ∧ ∀ w ∈ d, w.data.head? = some 'A' := by
  unfold ensureNode
  cases h : m.find? (fun n => n.id == x) with
  | none =>
      exact ⟨[placeholderWarning x], rfl,
        fun w hw => by rw [List.eq_of_mem_singleton hw]; exact head_placeholderWarning x⟩
  | some n => exact ⟨[], by simp⟩

theorem processRawNode_warnings (opts : NormalizeFlowGraphOptions) (st : BuildState)
    (e : String × JVal) :
    ∃ d, (processRawNode opts st e).warnings = st.warnings ++ d
      ∧ ∀ w ∈ d, w.data.head? = some 'S' := by
  obtain ⟨k, v⟩ := e
  cases h : asRecord (some v) with
  | none =>
      refine ⟨[skippedNodeWarning k], ?_, fun w hw => by
        rw [List.eq_of_mem_singleton hw]; exact head_skippedNodeWarning k⟩
      simp only [processRawNode, h]
  | some nodeObj =>
      simp only [processRawNode, h]
      have hmem := mem_ids_upsertNode st.nodeMap
        { id := (asString (jget nodeObj "ref")).getD k
          kind := inferKind (asString (jget nodeObj "type"))
          name := some ((if inferKind (asString (jget nodeObj "type")) = .folder
              then lookupName opts.folderNamesById ((asString (jget nodeObj "ref")).getD k)
              else none).getD
            ((match asString (jget nodeObj "name") with
              | some s => some s
              | none =>
                  match asString (jget nodeObj "label") with
                  | some s => some s
                  | none => asString (jget nodeObj "ref")).getD k))
          subtype :=
            match asString (jget nodeObj "subType") with
            | some s => some s
            | none =>
                match asString (jget nodeObj "subtype") with
                | some s => some s
                | none => inferSubtypeFromType (asString (jget nodeObj "type"))
          connection := getConnection nodeObj }
      obtain ⟨hm, hw⟩ := ensureNode_of_mem st.warnings hmem
      rw [hw]
      obtain ⟨d1, hd1, hp1⟩ := asStringArray_warnS (jget nodeObj "predecessors")
        st.warnings ("nodes." ++ k ++ ".predecessors")
      rw [hd1]
      obtain ⟨d2, hd2, hp2⟩ := asStringArray_warnS (jget nodeObj "successors")
        (st.warnings ++ d1) ("nodes." ++ k ++ ".successors")
      rw [hd2]
      refine ⟨d1 ++ d2, by rw [List.append_assoc], fun w hw' => ?_⟩
      rcases List.mem_append.mp hw' with h1 | h2
      · exact hp1 w h1
      · exact hp2 w h2

theorem warnExt_trans {P : String → Prop} {w1 w2 w3 : List String}
    (h12 : ∃ d, w2 = w1 ++ d ∧ ∀ w ∈ d, P w)
    (h23 : ∃ d, w3 = w2 ++ d ∧ ∀ w ∈ d, P w) :
    ∃ d, w3 = w1 ++ d ∧ ∀ w ∈ d, P w := by
  obtain ⟨d1, hd1, hp1⟩ := h12
  obtain ⟨d2, hd2, hp2⟩ := h23
  refine ⟨d1 ++ d2, by rw [hd2, hd1, List.append_assoc], fun w hw => ?_⟩
  rcases List.mem_append.mp hw with h1 | h2
  · exact hp1 w h1
  · exact hp2 w h2

theorem foldl_warnings_const {α : Type} (f : BuildState → α → BuildState)
    (hf : ∀ st a, (f st a).warnings = st.warnings) :
    ∀ (l : List α) (st : BuildState), (l.foldl f st).warnings = st.warnings
  | [], st => rfl
  | a :: l, st => by
      rw [List.foldl_cons, foldl_warnings_const f hf l (f st a), hf]

theorem mergeEnumerations_warnings (opts : NormalizeFlowGraphOptions)
    (root : List (String × JVal)) (st : BuildState) :
    ∃ d, (mergeEnumerations opts root st).warnings = st.warnings ++ d
      ∧ ∀ w ∈ d, w.data.head? = some 'S' := by
  unfold mergeEnumerations
  simp only [foldl_warnings_const addDatasetNode (fun _ _ => rfl),
    foldl_warnings_const addRecipeNode (fun _ _ => rfl),
    foldl_warnings_const (addFolderNode opts) (fun _ _ => rfl)]
  exact warnExt_trans
    (warnExt_trans (asStringArray_warnS (jget root "datasets") st.warnings "datasets")
      (asStringArray_warnS (jget root "recipes") _ "recipes"))
    (asStringArray_warnS (jget root "folders") _ "folders")

theorem preEdgeState_warnings (opts : NormalizeFlowGraphOptions)
    (root : List (String × JVal)) :
    ∀ w ∈ (preEdgeState opts root).warnings, w.data.head? = some 'S' := by
  unfold preEdgeState
  simp only []
  have hw0 : ∀ w ∈ (match jget root "nodes" with
      | none => ([] : List String)
      | some v => if (asRecord (some v)).isSome then [] else [skippedNodesFieldWarning]),
      w.data.head? = some 'S' := by
    cases h : jget root "nodes" with
    | none => simp
    | some v =>
        by_cases hv : (asRecord (some v)).isSome
        · simp [hv]
        · have hb : (asRecord (some v)).isSome = false := by
            cases hx : (asRecord (some v)).isSome
            · rfl
            · exact absurd hx hv
          simp only [hb, Bool.false_eq_true, if_false]
          intro w hw
          rw [List.eq_of_mem_singleton hw]
          show ("Skipped \"nodes\" because it was not an object.").data.head? = _
          rfl
  obtain ⟨d1, hd1, hp1⟩ := foldl_warnings_extend BuildState.warnings
    (processRawNode opts) (fun w => w.data.head? = some 'S')
    (processRawNode_warnings opts)
    ((asRecord (jget root "nodes")).getD [])
    { nodeMap := [], aliasMap := [],
      warnings := match jget root "nodes" with
        | none => ([] : List String)
        | some v => if (asRecord (some v)).isSome then [] else [skippedNodesFieldWarning] }
  obtain ⟨d2, hd2, hp2⟩ := mergeEnumerations_warnings opts root
    (((asRecord (jget root "nodes")).getD []).foldl (processRawNode opts)
      { nodeMap := [], aliasMap := [],
        warnings := match jget root "nodes" with
          | none => ([] : List String)
          | some v => if (asRecord (some v)).isSome then [] else [skippedNodesFieldWarning] })
  intro w hw
  have hw' : w ∈ (mergeEnumerations opts root
      (((asRecord (jget root "nodes")).getD []).foldl (processRawNode opts)
        { nodeMap := [], aliasMap := [],
          warnings := match jget root "nodes" with
            | none => ([] : List String)
            | some v => if (asRecord (some v)).isSome then []
                        else [skippedNodesFieldWarning] })).warnings := hw
  rw [hd2, hd1] at hw'
  simp only [List.append_assoc, List.mem_append] at hw'
  rcases hw' with h0 | h1 | h2
  · exact hw0 w h0
  · exact hp1 w h1
  · exact hp2 w h2

theorem addEdge_warnings (am : List (String × String)) (es : EdgeState)
    (fromRef toRef : String) :
    ∃ d, (addEdge am es fromRef toRef).warnings = es.warnings ++ d
      ∧ ∀ w ∈ d, w.data.head? = some 'A' := by
  unfold addEdge
  exact warnExt_trans
    (ensureNode_warnings es.nodeMap es.warnings (resolveAlias am fromRef))
    (ensureNode_warnings _ _ (resolveAlias am toRef))

set_option maxHeartbeats 2000000 in
theorem buildEdges_warnings (am : List (String × String)) (m : List InternalNode)
    (ws : List String) :
    ∃ d, (buildEdges am m ws).warnings = ws ++ d
      ∧ ∀ w ∈ d, w.data.head? = some 'A' := by
  have h := foldl_warnings_extend EdgeState.warnings
    (fun es p => addEdge am es p.1 p.2) (fun w => w.data.head? = some 'A')
    (fun st p => addEdge_warnings am st p.1 p.2) (emittedRefPairs m)
    { nodeMap := m, edgeMap := [], warnings := ws }
  exact h

/-- Every warning a normal (object-input) run accumulates starts with 'S'
or 'A' — in particular none equals the fatal-shaped warning. -/
theorem finalEdgeState_warnings (opts : NormalizeFlowGraphOptions)
    (root : List (String × JVal)) :
    ∀ w ∈ (finalEdgeState opts root).warnings,
      w.data.head? = some 'S' ∨ w.data.head? = some 'A' := by
  unfold finalEdgeState
  obtain ⟨d, hd, hp⟩ := buildEdges_warnings (preEdgeState opts root).aliasMap
    (preEdgeState opts root).nodeMap (preEdgeState opts root).warnings
  rw [hd]
  intro w hw
  rcases List.mem_append.mp hw with h1 | h2
  · exact Or.inl (preEdgeState_warnings opts root w h1)
  · exact Or.inr (hp w h2)

/-! ### Claim C3: the single fatal-shaped condition -/

/-- C3: `normalizeFlowGraph` is a total function (the embedding is a plain
Lean function, mirroring that the TS code never throws), and it returns the
empty map whose sole warning is "Flow graph response was not an object."
precisely for the inputs that do not narrow to a record (strings, numbers,
booleans, null, arrays, undefined) — no object input ever produces that
outcome. -/
theorem normalize_notAnObject_iff (raw : Option JVal) (pk : String)
    (opts : NormalizeFlowGraphOptions) :
    normalizeFlowGraph raw pk opts = emptyFlowMap pk ↔ asRecord raw = none := by
  constructor
  · intro h
    cases hr : asRecord raw with
    | none => rfl
    | some root =>
        exfalso
        have hmap : normalizeFlowGraph raw pk opts =
            assembleFlowMap pk
              (((finalEdgeState opts root).nodeMap.map toNormalizedNode).insertionSort nodeLe)
              (((finalEdgeState opts root).edgeMap.map (·.2)).insertionSort edgeLe)
              (finalEdgeState opts root).warnings := by
          simp only [normalizeFlowGraph, hr]
        have hwarn : (normalizeFlowGraph raw pk opts).warnings =
            (finalEdgeState opts root).warnings := by rw [hmap]; rfl
        rw [h] at hwarn
        have hmem : notAnObjectWarning ∈ (finalEdgeState opts root).warnings := by
          rw [← hwarn]
          exact List.mem_singleton_self _
        have := finalEdgeState_warnings opts root _ hmem
        have hF : notAnObjectWarning.data.head? = some 'F' := rfl
        rw [hF] at this
        rcases this with h1 | h2
        · exact absurd (Option.some.inj h1) (by decide)
        · exact absurd (Option.some.inj h2) (by decide)
  · intro h
    simp only [normalizeFlowGraph, h]

/-! ### Edge-phase invariants (for C2, C5, C10) -/

/-- The ids of a node map, in order. -/
def idsOf (m : List InternalNode) : List String := m.map (·.id)

/-- The kind under which an id is stored (placeholder ids are "other"). -/
def kindOf (m : List InternalNode) (x : String) : FlowNodeKind :=
  match m.find? (fun n => n.id == x) with
  | some n => n.kind
  | none => .other

/-- The placeholder node `ensureNode` synthesizes. -/
def phNode (x : String) : InternalNode :=
  { id := x, kind := .other, name := some x, subtype := none,
    connection := none, predecessors := [], successors := [] }

theorem find?_append_isSome {m m' : List InternalNode} {p : InternalNode → Bool}
    (h : (m.find? p).isSome) : (m ++ m').find? p = m.find? p := by
  rw [List.find?_append]
  obtain ⟨x, hx⟩ := Option.isSome_iff_exists.mp h
  rw [hx]
  rfl

theorem kindOf_append {m extra : List InternalNode} {x : String}
    (h : x ∈ idsOf m) : kindOf (m ++ extra) x = kindOf m x := by
  unfold kindOf
  rw [find?_append_isSome (find?_isSome_of_mem_ids h)]

theorem ensureNode_cases (m : List InternalNode) (ws : List String) (x : String) :
    (∃ n, m.find? (fun n => n.id == x) = some n ∧ n.id = x
       ∧ ensureNode m ws x = (n, m, ws))
    ∨ (x ∉ idsOf m
       ∧ ensureNode m ws x = (phNode x, m ++ [phNode x], ws ++ [placeholderWarning x])) := by
  cases h : m.find? (fun n => n.id == x) with
  | some n =>
      refine Or.inl ⟨n, rfl, ?_, ?_⟩
      · have hp := List.find?_some h
        exact beq_iff_eq.mp hp
      · unfold ensureNode
        rw [h]
  | none =>
      refine Or.inr ⟨?_, ?_⟩
      · intro hmem
        have hs := find?_isSome_of_mem_ids hmem
        rw [h] at hs
        exact Bool.noConfusion hs
      · unfold ensureNode
        rw [h]
        rfl

theorem kindOf_of_find?_eq_some {m : List InternalNode} {x : String} {n : InternalNode}
    (h : m.find? (fun n => n.id == x) = some n) : kindOf m x = n.kind := by
  unfold kindOf
  rw [h]

theorem mem_ids_append_right (m : List InternalNode) (n : InternalNode) :
    n.id ∈ idsOf (m ++ [n]) := by
  simp [idsOf]

theorem kindOf_snoc_self {m : List InternalNode} {x : String} (h : x ∉ idsOf m) :
    kindOf (m ++ [phNode x]) x = .other := by
  unfold kindOf
  rw [List.find?_append]
  have hn : m.find? (fun n => n.id == x) = none := by
    rw [List.find?_eq_none]
    intro n hn hbeq
    exact h (List.mem_map.mpr ⟨n, hn, beq_iff_eq.mp hbeq⟩)
  rw [hn]
  simp [List.find?, phNode]

/-- Summary of one `ensureNode` call: the map grows by zero or one
placeholder, kinds of present ids are unchanged, the returned node's kind is
the stored kind of `x` afterwards, and the warnings grow accordingly. -/
theorem ensureNode_effect (m : List InternalNode) (ws : List String) (x : String) :
    ∃ extra, (ensureNode m ws x).2.1 = m ++ extra
      ∧ (∀ n ∈ extra, n = phNode x ∧ n.id ∉ idsOf m)
      ∧ (ensureNode m ws x).2.2 = ws ++ extra.map (fun n => placeholderWarning n.id)
      ∧ x ∈ idsOf (ensureNode m ws x).2.1
      ∧ (ensureNode m ws x).1.kind = kindOf (ensureNode m ws x).2.1 x
      ∧ (∀ y ∈ idsOf m, kindOf (ensureNode m ws x).2.1 y = kindOf m y)
      ∧ (extra = [] ∨ (extra = [phNode x] ∧ x ∉ idsOf m)) := by
  rcases ensureNode_cases m ws x with ⟨n, hfind, hid, heq⟩ | ⟨hnot, heq⟩
  · refine ⟨[], by simp [heq], by simp, by simp [heq], ?_, ?_, ?_, Or.inl rfl⟩
    · rw [heq]
      exact hid ▸ List.mem_map.mpr ⟨n, List.mem_of_find?_eq_some hfind, rfl⟩
    · rw [heq]
      exact (kindOf_of_find?_eq_some hfind).symm
    · rw [heq]
      intro y _
      rfl
  · refine ⟨[phNode x], by simp [heq], ?_, by rw [heq]; rfl, ?_, ?_, ?_, Or.inr ⟨rfl, hnot⟩⟩
    · intro n hn
      rw [List.eq_of_mem_singleton hn]
      exact ⟨rfl, hnot⟩
    · rw [heq]
      exact mem_ids_append_right m (phNode x)
    · rw [heq]
      exact (kindOf_snoc_self hnot).symm
    · intro y hy
      rw [heq]
      exact kindOf_append hy

theorem setEdge_self : ∀ (em : List (String × NormalizedFlowEdge)) (k : String)
    (e : NormalizedFlowEdge), (k, e) ∈ setEdge em k e
  | [], _, _ => List.mem_singleton_self _
  | (a, w) :: rest, k, e => by
      by_cases h : a == k
      · simp [setEdge, h]
      · have hb : (a == k) = false := by
          cases hx : a == k
          · rfl
          · exact absurd hx h
        simp only [setEdge, hb, Bool.false_eq_true, if_false, List.mem_cons]
        exact Or.inr (setEdge_self rest k e)

theorem mem_setEdge : ∀ {em : List (String × NormalizedFlowEdge)} {k : String}
    {e : NormalizedFlowEdge} {q : String × NormalizedFlowEdge},
    q ∈ setEdge em k e → q = (k, e) ∨ q ∈ em := by
  intro em
  induction em with
  | nil => intro k e q hq; exact Or.inl (List.eq_of_mem_singleton hq)
  | cons a rest ih =>
      intro k e q hq
      by_cases h : a.1 == k
      · obtain ⟨a1, a2⟩ := a
        simp only [setEdge, h, if_pos] at hq
        rcases List.mem_cons.mp hq with h1 | h2
        · exact Or.inl h1
        · exact Or.inr (List.mem_cons_of_mem _ h2)
      · obtain ⟨a1, a2⟩ := a
        have hb : (a1 == k) = false := by
          cases hx : a1 == k
          · rfl
          · exact absurd hx h
        simp only [setEdge, hb, Bool.false_eq_true, if_false] at hq
        rcases List.mem_cons.mp hq with h1 | h2
        · exact Or.inr (h1 ▸ List.mem_cons_self _ _)
        · rcases ih h2 with h3 | h4
          · exact Or.inl h3
          · exact Or.inr (List.mem_cons_of_mem _ h4)

theorem mem_setEdge_of_ne : ∀ {em : List (String × NormalizedFlowEdge)} {k : String}
    {e : NormalizedFlowEdge} {q : String × NormalizedFlowEdge},
    q ∈ em → q.1 ≠ k → q ∈ setEdge em k e := by
  intro em
  induction em with
  | nil => intro k e q hq; exact absurd hq (List.not_mem_nil q)
  | cons a rest ih =>
      intro k e q hq hne
      obtain ⟨a1, a2⟩ := a
      rcases List.mem_cons.mp hq with h1 | h2
      · have ha : (a1 == k) = false := by
          rw [beq_eq_false_iff_ne]
          intro hcontra
          exact hne (by rw [h1]; exact hcontra)
        simp only [setEdge, ha, Bool.false_eq_true, if_false]
        exact h1 ▸ List.mem_cons_self _ _
      · by_cases hk : a1 == k
        · simp only [setEdge, hk, if_pos]
          exact List.mem_cons_of_mem _ h2
        · have hb : (a1 == k) = false := by
            cases hx : a1 == k
            · rfl
            · exact absurd hx hk
          simp only [setEdge, hb, Bool.false_eq_true, if_false]
          exact List.mem_cons_of_mem _ (ih h2 hne)

theorem setEdge_keys_of_mem : ∀ {em : List (String × NormalizedFlowEdge)} {k : String}
    (e : NormalizedFlowEdge), k ∈ em.map (·.1) →
    (setEdge em k e).map (·.1) = em.map (·.1) := by
  intro em
  induction em with
  | nil => intro k e hk; exact absurd hk (List.not_mem_nil k)
  | cons a rest ih =>
      intro k e hk
      obtain ⟨a1, a2⟩ := a
      by_cases h : a1 == k
      · have := beq_iff_eq.mp h
        simp [setEdge, h, this]
      · have hb : (a1 == k) = false := by
          cases hx : a1 == k
          · rfl
          · exact absurd hx h
        have hk' : k ∈ rest.map (·.1) := by
          rcases List.mem_cons.mp hk with h1 | h2
          · exact absurd h1.symm (beq_eq_false_iff_ne.mp hb)
          · exact h2
        simp only [setEdge, hb, Bool.false_eq_true, if_false, List.map_cons, ih e hk']

theorem setEdge_of_not_mem : ∀ {em : List (String × NormalizedFlowEdge)} {k : String}
    (e : NormalizedFlowEdge), k ∉ em.map (·.1) →
    setEdge em k e = em ++ [(k, e)] := by
  intro em
  induction em with
  | nil => intro k e _; rfl
  | cons a rest ih =>
      intro k e hk
      obtain ⟨a1, a2⟩ := a
      have hne : a1 ≠ k := by
        intro h
        exact hk (h ▸ List.mem_cons_self _ _)
      have hb : (a1 == k) = false := beq_eq_false_iff_ne.mpr hne
      have hk' : k ∉ rest.map (·.1) := fun h => hk (List.mem_cons_of_mem _ h)
      simp only [setEdge, hb, Bool.false_eq_true, if_false, ih e hk', List.cons_append]

theorem idsOf_append (a b : List InternalNode) : idsOf (a ++ b) = idsOf a ++ idsOf b :=
  List.map_append _ a b

theorem not_mem_keys_of_find?_none {em : List (String × NormalizedFlowEdge)} {k : String}
    (h : em.find? (fun p => p.1 == k) = none) : k ∉ em.map (·.1) := by
  intro hk
  obtain ⟨q, hq, hq1⟩ := List.mem_map.mp hk
  exact (List.find?_eq_none.mp h q hq) (by simp [hq1])

/-- Invariant carried through the edge-resolution fold: the node map is the
pre-edge map plus placeholder nodes (mirrored one-for-one by the appended
warnings), node ids stay duplicate-free, and every edge-map entry is keyed
`from::to`, has live endpoints, and carries the relation inferred from the
stored kinds of its endpoints; edge keys stay duplicate-free. -/
def EdgeInv (M0 : List InternalNode) (W0 : List String) (es : EdgeState) : Prop :=
  (∃ extra, es.nodeMap = M0 ++ extra
    ∧ (∀ n ∈ extra, n.kind = .other ∧ n.id ∉ idsOf M0)
    ∧ es.warnings = W0 ++ extra.map (fun n => placeholderWarning n.id))
  ∧ (idsOf es.nodeMap).Nodup
  ∧ (∀ q ∈ es.edgeMap, q.1 = q.2.from' ++ "::" ++ q.2.to'
      ∧ q.2.from' ∈ idsOf es.nodeMap ∧ q.2.to' ∈ idsOf es.nodeMap
      ∧ q.2.relation = inferRelation (kindOf es.nodeMap q.2.from') (kindOf es.nodeMap q.2.to'))
  ∧ (es.edgeMap.map (·.1)).Nodup

theorem nodup_ids_of_extend {m : List InternalNode} {x : String}
    (hm : (idsOf m).Nodup) (hx : x ∉ idsOf m) :
    (idsOf (m ++ [phNode x])).Nodup := by
  rw [idsOf_append]
  refine List.Nodup.append hm (List.nodup_singleton _) ?_
  intro a ha hb
  have hax : a = x := by
    simp only [idsOf, phNode, List.map_cons, List.map_nil, List.mem_singleton] at hb
    exact hb
  exact hx (hax ▸ ha)

theorem find?_keys_some {em : List (String × NormalizedFlowEdge)} {k : String}
    {q : String × NormalizedFlowEdge} (h : em.find? (fun p => p.1 == k) = some q) :
    q ∈ em ∧ q.1 = k := by
  refine ⟨List.mem_of_find?_eq_some h, ?_⟩
  have hp := List.find?_some h
  exact beq_iff_eq.mp hp

theorem mem_updateEdgeMap {em : List (String × NormalizedFlowEdge)} {k : String}
    {e : NormalizedFlowEdge} {q : String × NormalizedFlowEdge}
    (h : q ∈ updateEdgeMap em k e) : q = (k, e) ∨ q ∈ em := by
  unfold updateEdgeMap at h
  cases hf : (em.find? (fun p => p.1 == k)).map (·.2) with
  | none =>
      rw [hf] at h
      exact mem_setEdge h
  | some existing =>
      rw [hf] at h
      have hB : q ∈ (if relationRank e.relation > relationRank existing.relation
          then setEdge em k e else em) := h
      by_cases hr : relationRank e.relation > relationRank existing.relation
      · rw [if_pos hr] at hB
        exact mem_setEdge hB
      · rw [if_neg hr] at hB
        exact Or.inr hB

theorem updateEdgeMap_eq_of_none {em : List (String × NormalizedFlowEdge)} {k : String}
    (e : NormalizedFlowEdge) (h : em.find? (fun p => p.1 == k) = none) :
    updateEdgeMap em k e = setEdge em k e := by
  unfold updateEdgeMap
  rw [h]
  rfl

theorem updateEdgeMap_eq_of_some {em : List (String × NormalizedFlowEdge)} {k : String}
    (e : NormalizedFlowEdge) {q : String × NormalizedFlowEdge}
    (h : em.find? (fun p => p.1 == k) = some q) :
    updateEdgeMap em k e =
      if relationRank e.relation > relationRank q.2.relation then setEdge em k e
      else em := by
  unfold updateEdgeMap
  rw [h]
  rfl

theorem updateEdgeMap_keys_nodup {em : List (String × NormalizedFlowEdge)} {k : String}
    {e : NormalizedFlowEdge} (h : (em.map (·.1)).Nodup) :
    ((updateEdgeMap em k e).map (·.1)).Nodup := by
  cases hf : em.find? (fun p => p.1 == k) with
  | none =>
      have hnot := not_mem_keys_of_find?_none hf
      rw [updateEdgeMap_eq_of_none e hf, setEdge_of_not_mem e hnot, List.map_append]
      refine List.Nodup.append h (List.nodup_singleton _) ?_
      intro a ha hb
      simp only [List.map_cons, List.map_nil, List.mem_singleton] at hb
      exact hnot (hb ▸ ha)
  | some q =>
      obtain ⟨hqm, hqk⟩ := find?_keys_some hf
      have hk : k ∈ em.map (·.1) := hqk ▸ List.mem_map_of_mem (·.1) hqm
      rw [updateEdgeMap_eq_of_some e hf]
      by_cases hr : relationRank e.relation > relationRank q.2.relation
      · rw [if_pos hr, setEdge_keys_of_mem e hk]
        exact h
      · rw [if_neg hr]
        exact h

set_option maxHeartbeats 2000000 in
/-- One `addEdge` call preserves the edge-phase invariant, only grows the
node-id set, and leaves both resolved endpoints present. -/
theorem addEdge_inv (am : List (String × String)) {M0 : List InternalNode}
    {W0 : List String} {es : EdgeState} (hInv : EdgeInv M0 W0 es) (r1 r2 : String) :
    EdgeInv M0 W0 (addEdge am es r1 r2)
    ∧ (∀ y ∈ idsOf es.nodeMap, y ∈ idsOf (addEdge am es r1 r2).nodeMap)
    ∧ resolveAlias am r1 ∈ idsOf (addEdge am es r1 r2).nodeMap
    ∧ resolveAlias am r2 ∈ idsOf (addEdge am es r1 r2).nodeMap := by
  obtain ⟨⟨extra0, hm0, hph0, hw0⟩, hnd, hq, hknd⟩ := hInv
  obtain ⟨exF, hmF, hphF, hwF, hmemF, hkF, hpresF, hcF⟩ :=
    ensureNode_effect es.nodeMap es.warnings (resolveAlias am r1)
  obtain ⟨exT, hmT, hphT, hwT, hmemT, hkT, hpresT, hcT⟩ :=
    ensureNode_effect (ensureNode es.nodeMap es.warnings (resolveAlias am r1)).2.1
      (ensureNode es.nodeMap es.warnings (resolveAlias am r1)).2.2 (resolveAlias am r2)
  have hnode : (addEdge am es r1 r2).nodeMap =
      (ensureNode (ensureNode es.nodeMap es.warnings (resolveAlias am r1)).2.1
        (ensureNode es.nodeMap es.warnings (resolveAlias am r1)).2.2
        (resolveAlias am r2)).2.1 := rfl
  have hwarn : (addEdge am es r1 r2).warnings =
      (ensureNode (ensureNode es.nodeMap es.warnings (resolveAlias am r1)).2.1
        (ensureNode es.nodeMap es.warnings (resolveAlias am r1)).2.2
        (resolveAlias am r2)).2.2 := rfl
  have hedge : (addEdge am es r1 r2).edgeMap =
      updateEdgeMap es.edgeMap
        (resolveAlias am r1 ++ "::" ++ resolveAlias am r2)
        ⟨resolveAlias am r1, resolveAlias am r2,
          inferRelation
            (ensureNode es.nodeMap es.warnings (resolveAlias am r1)).1.kind
            (ensureNode (ensureNode es.nodeMap es.warnings (resolveAlias am r1)).2.1
              (ensureNode es.nodeMap es.warnings (resolveAlias am r1)).2.2
              (resolveAlias am r2)).1.kind⟩ := rfl
  have hm2 : (addEdge am es r1 r2).nodeMap = es.nodeMap ++ (exF ++ exT) := by
    rw [hnode, hmT, hmF, List.append_assoc]
  have hmono : ∀ y ∈ idsOf es.nodeMap, y ∈ idsOf (addEdge am es r1 r2).nodeMap := by
    intro y hy
    rw [hm2, idsOf_append]
    exact List.mem_append_left _ hy
  have hf_mem : resolveAlias am r1 ∈ idsOf (addEdge am es r1 r2).nodeMap := by
    rw [hnode, hmT, idsOf_append]
    exact List.mem_append_left _ hmemF
  have ht_mem : resolveAlias am r2 ∈ idsOf (addEdge am es r1 r2).nodeMap := by
    rw [hnode]
    exact hmemT
  have hpres2 : ∀ y ∈ idsOf es.nodeMap,
      kindOf (addEdge am es r1 r2).nodeMap y = kindOf es.nodeMap y := by
    intro y hy
    have h1 : y ∈ idsOf (ensureNode es.nodeMap es.warnings (resolveAlias am r1)).2.1 := by
      rw [hmF, idsOf_append]
      exact List.mem_append_left _ hy
    rw [hnode, hpresT y h1, hmF, kindOf_append hy]
  have hkindF : (ensureNode es.nodeMap es.warnings (resolveAlias am r1)).1.kind
      = kindOf (addEdge am es r1 r2).nodeMap (resolveAlias am r1) := by
    rw [hnode, hpresT _ hmemF, hkF]
  have hkindT : (ensureNode (ensureNode es.nodeMap es.warnings (resolveAlias am r1)).2.1
        (ensureNode es.nodeMap es.warnings (resolveAlias am r1)).2.2
        (resolveAlias am r2)).1.kind
      = kindOf (addEdge am es r1 r2).nodeMap (resolveAlias am r2) := by
    rw [hnode, hkT]
  refine ⟨⟨⟨extra0 ++ (exF ++ exT), ?_, ?_, ?_⟩, ?_, ?_, ?_⟩, hmono, hf_mem, ht_mem⟩
  · rw [hm2, hm0, List.append_assoc]
  · intro n hn
    rcases List.mem_append.mp hn with h0 | hFT
    · exact hph0 n h0
    · rcases List.mem_append.mp hFT with hF | hT
      · obtain ⟨hne, hni⟩ := hphF n hF
        refine ⟨by rw [hne]; rfl, fun hmem => hni ?_⟩
        rw [hm0, idsOf_append]
        exact List.mem_append_left _ hmem
      · obtain ⟨hne, hni⟩ := hphT n hT
        refine ⟨by rw [hne]; rfl, fun hmem => hni ?_⟩
        rw [hmF, idsOf_append]
        refine List.mem_append_left _ ?_
        rw [hm0, idsOf_append]
        exact List.mem_append_left _ hmem
  · rw [hwarn, hwT, hwF, hw0]
    simp [List.map_append, List.append_assoc]
  · have nd1 : (idsOf (ensureNode es.nodeMap es.warnings (resolveAlias am r1)).2.1).Nodup := by
      rw [hmF]
      rcases hcF with hce | ⟨hce, hcnot⟩
      · rw [hce]
        simpa using hnd
      · rw [hce]
        exact nodup_ids_of_extend hnd hcnot
    rw [hnode, hmT]
    rcases hcT with hce | ⟨hce, hcnot⟩
    · rw [hce]
      simpa using nd1
    · rw [hce]
      exact nodup_ids_of_extend nd1 hcnot
  · intro q hqmem
    rw [hedge] at hqmem
    rcases mem_updateEdgeMap hqmem with hnew | hold
    · subst hnew
      refine ⟨rfl, hf_mem, ht_mem, ?_⟩
      show inferRelation _ _ = _
      rw [hkindF, hkindT]
    · obtain ⟨hsh, hfm, htm, hrel⟩ := hq q hold
      refine ⟨hsh, hmono _ hfm, hmono _ htm, ?_⟩
      rw [hrel, hpres2 _ hfm, hpres2 _ htm]
  · rw [hedge]
    exact updateEdgeMap_keys_nodup hknd

/-- Folding `addEdge` over reference pairs preserves the invariant; all node
ids persist and every processed pair's resolved endpoints are present at the
end. -/
theorem buildEdges_fold_inv (am : List (String × String)) :
    ∀ (pairs : List (String × String)) (es : EdgeState) {M0 : List InternalNode}
      {W0 : List String}, EdgeInv M0 W0 es →
    EdgeInv M0 W0 (pairs.foldl (fun es p => addEdge am es p.1 p.2) es)
    ∧ (∀ y ∈ idsOf es.nodeMap,
        y ∈ idsOf (pairs.foldl (fun es p => addEdge am es p.1 p.2) es).nodeMap)
    ∧ (∀ p ∈ pairs,
        resolveAlias am p.1 ∈
          idsOf (pairs.foldl (fun es p => addEdge am es p.1 p.2) es).nodeMap
        ∧ resolveAlias am p.2 ∈
          idsOf (pairs.foldl (fun es p => addEdge am es p.1 p.2) es).nodeMap)
  | [], es, M0, W0, h => ⟨h, fun _ hy => hy, by simp⟩
  | p :: pairs, es, M0, W0, h => by
      obtain ⟨hInv1, hmono1, hf1, ht1⟩ := addEdge_inv am h p.1 p.2
      obtain ⟨hInvR, hmonoR, hpairsR⟩ :=
        buildEdges_fold_inv am pairs (addEdge am es p.1 p.2) hInv1
      refine ⟨hInvR, ?_, ?_⟩
      · intro y hy
        exact hmonoR y (hmono1 y hy)
      · intro q hqmem
        rcases List.mem_cons.mp hqmem with h1 | h2
        · subst h1
          exact ⟨hmonoR _ hf1, hmonoR _ ht1⟩
        · exact hpairsR q h2

/-- Generic state-predicate preservation along a fold. -/
theorem foldl_preserve {σ α : Type} (P : σ → Prop) (f : σ → α → σ)
    (h : ∀ st a, P st → P (f st a)) :
    ∀ (l : List α) (st : σ), P st → P (l.foldl f st)
  | [], _, hp => hp
  | a :: l, st, hp => foldl_preserve P f h l (f st a) (h st a hp)

theorem nodup_ids_snoc {m : List InternalNode} {n : InternalNode}
    (hm : (idsOf m).Nodup) (hn : n.id ∉ idsOf m) : (idsOf (m ++ [n])).Nodup := by
  rw [idsOf_append]
  refine List.Nodup.append hm (List.nodup_singleton _) ?_
  intro a ha hb
  have hax : a = n.id := by
    simp only [idsOf, List.map_cons, List.map_nil, List.mem_singleton] at hb
    exact hb
  exact hn (hax ▸ ha)

theorem setNode_ids_of_mem {n : InternalNode} : ∀ {m : List InternalNode},
    n.id ∈ idsOf m → idsOf (setNode m n) = idsOf m := by
  intro m
  induction m with
  | nil => intro h; exact absurd h (List.not_mem_nil _)
  | cons x rest ih =>
      intro h
      by_cases hx : x.id == n.id
      · simp only [setNode, hx, if_pos]
        simp only [idsOf, List.map_cons]
        rw [beq_iff_eq.mp hx]
      · have hb : (x.id == n.id) = false := by
          cases hc : x.id == n.id
          · rfl
          · exact absurd hc hx
        have hne : n.id ≠ x.id := fun hcontra =>
          (beq_eq_false_iff_ne.mp hb) hcontra.symm
        have h' : n.id ∈ idsOf rest := by
          simp only [idsOf, List.map_cons, List.mem_cons] at h
          rcases h with h1 | h2
          · exact absurd h1 hne
          · exact h2
        simp only [setNode, hb, Bool.false_eq_true, if_false]
        simp only [idsOf, List.map_cons] at ih ⊢
        rw [ih h']

theorem upsertNode_ids_nodup {m : List InternalNode} (node : NodeDecl)
    (hm : (idsOf m).Nodup) : (idsOf (upsertNode m node)).Nodup := by
  unfold upsertNode
  cases h : m.find? (fun x => x.id == node.id) with
  | none =>
      have hnot : node.id ∉ idsOf m := by
        intro hmem
        obtain ⟨n, hn, hid⟩ := List.mem_map.mp hmem
        exact (List.find?_eq_none.mp h n hn) (by simp [hid])
      exact nodup_ids_snoc hm hnot
  | some existing =>
      have hexid : existing.id = node.id := by
        have hp := List.find?_some h
        exact beq_iff_eq.mp hp
      have hmem : (mergeNode existing node).id ∈ idsOf m := by
        show existing.id ∈ idsOf m
        exact List.mem_map_of_mem _ (List.mem_of_find?_eq_some h)
      rw [setNode_ids_of_mem hmem]
      exact hm

theorem setAdj_ids : ∀ (m : List InternalNode) (id : String) (ps ss : List String),
    idsOf (setAdj m id ps ss) = idsOf m
  | [], _, _, _ => rfl
  | x :: rest, id, ps, ss => by
      by_cases h : x.id == id
      · simp only [setAdj, h, if_pos]
        simp only [idsOf, List.map_cons]
      · have hb : (x.id == id) = false := by
          cases hc : x.id == id
          · rfl
          · exact absurd hc h
        simp only [setAdj, hb, Bool.false_eq_true, if_false]
        simp only [idsOf, List.map_cons]
        have hrec := setAdj_ids rest id ps ss
        simp only [idsOf] at hrec
        rw [hrec]

theorem renameFolders_ids (opts : NormalizeFlowGraphOptions) (m : List InternalNode) :
    idsOf (renameFolders opts m) = idsOf m := by
  unfold renameFolders idsOf
  rw [List.map_map]
  congr 1
  funext node
  by_cases h : node.kind = .folder
  · simp only [Function.comp, h, if_pos]
    cases lookupName opts.folderNamesById node.id with
    | none => rfl
    | some fr =>
        by_cases h2 : (!truthyS node.name || node.name == some node.id) = true
        · simp [h2]
        · simp [h2]
  · simp [Function.comp, h]

theorem nodup_setAdj_ensure {m : List InternalNode} {w : List String} {id : String}
    {ps ss : List String} (h : (idsOf m).Nodup) :
    (idsOf (setAdj (ensureNode m w id).2.1 id ps ss)).Nodup := by
  rw [setAdj_ids]
  obtain ⟨ex, hm, hph, _, _, _, _, hc⟩ := ensureNode_effect m w id
  rw [hm]
  rcases hc with hce | ⟨hce, hnot⟩
  · rw [hce]
    simpa using h
  · rw [hce]
    exact nodup_ids_of_extend h hnot

theorem processRawNode_nodup (opts : NormalizeFlowGraphOptions) (st : BuildState)
    (e : String × JVal) (h : (idsOf st.nodeMap).Nodup) :
    (idsOf (processRawNode opts st e).nodeMap).Nodup := by
  obtain ⟨k, v⟩ := e
  cases h' : asRecord (some v) with
  | none =>
      simp only [processRawNode, h']
      exact h
  | some nodeObj =>
      simp only [processRawNode, h']
      exact nodup_setAdj_ensure (upsertNode_ids_nodup _ h)

theorem mergeEnumerations_nodup (opts : NormalizeFlowGraphOptions)
    (root : List (String × JVal)) (st : BuildState)
    (h : (idsOf st.nodeMap).Nodup) :
    (idsOf (mergeEnumerations opts root st).nodeMap).Nodup := by
  unfold mergeEnumerations
  refine foldl_preserve (fun st => (idsOf st.nodeMap).Nodup) (addFolderNode opts)
    (fun st a hst => upsertNode_ids_nodup _ hst) _ _ ?_
  show (idsOf (List.foldl addRecipeNode _ _).nodeMap).Nodup
  refine foldl_preserve (fun st => (idsOf st.nodeMap).Nodup) addRecipeNode
    (fun st a hst => upsertNode_ids_nodup _ hst) _ _ ?_
  show (idsOf (List.foldl addDatasetNode _ _).nodeMap).Nodup
  refine foldl_preserve (fun st => (idsOf st.nodeMap).Nodup) addDatasetNode
    (fun st a hst => upsertNode_ids_nodup _ hst) _ _ ?_
  exact h

theorem preEdgeState_nodup (opts : NormalizeFlowGraphOptions)
    (root : List (String × JVal)) :
    (idsOf (preEdgeState opts root).nodeMap).Nodup := by
  unfold preEdgeState
  simp only []
  rw [renameFolders_ids]
  refine mergeEnumerations_nodup opts root _ ?_
  refine foldl_preserve (fun st => (idsOf st.nodeMap).Nodup) (processRawNode opts)
    (processRawNode_nodup opts) _ _ ?_
  exact List.nodup_nil

/-- The invariant holds at the end of the edge phase, and every emitted
reference pair's resolved endpoints are present in the final node map. -/
theorem finalEdgeState_inv (opts : NormalizeFlowGraphOptions)
    (root : List (String × JVal)) :
    EdgeInv (preEdgeState opts root).nodeMap (preEdgeState opts root).warnings
      (finalEdgeState opts root)
    ∧ (∀ p ∈ emittedRefPairs (preEdgeState opts root).nodeMap,
        resolveAlias (preEdgeState opts root).aliasMap p.1
          ∈ idsOf (finalEdgeState opts root).nodeMap
        ∧ resolveAlias (preEdgeState opts root).aliasMap p.2
          ∈ idsOf (finalEdgeState opts root).nodeMap) := by
  have hInit : EdgeInv (preEdgeState opts root).nodeMap (preEdgeState opts root).warnings
      { nodeMap := (preEdgeState opts root).nodeMap, edgeMap := [],
        warnings := (preEdgeState opts root).warnings } := by
    refine ⟨⟨[], by simp, by simp, by simp⟩, ?_, by simp, by simp⟩
    show (idsOf (preEdgeState opts root).nodeMap).Nodup
    exact preEdgeState_nodup opts root
  obtain ⟨hI, _, hP⟩ := buildEdges_fold_inv (preEdgeState opts root).aliasMap
    (emittedRefPairs (preEdgeState opts root).nodeMap) _ hInit
  exact ⟨hI, hP⟩

/-- The ids declared by `raw.nodes` or the enumeration lists: exactly the
node ids present just before edge resolution. -/
def declaredIds (raw : Option JVal) (opts : NormalizeFlowGraphOptions) : List String :=
  match asRecord raw with
  | none => []
  | some root => idsOf (preEdgeState opts root).nodeMap

/-- The resolved ordered pairs emitted from the adjacency lists. -/
def resolvedEdgePairs (raw : Option JVal) (opts : NormalizeFlowGraphOptions) :
    List (String × String) :=
  match asRecord raw with
  | none => []
  | some root =>
      (emittedRefPairs (preEdgeState opts root).nodeMap).map
        (fun p => (resolveAlias (preEdgeState opts root).aliasMap p.1,
                   resolveAlias (preEdgeState opts root).aliasMap p.2))

/-- Every resolved id referenced as an edge endpoint. -/
def endpointIds (raw : Option JVal) (opts : NormalizeFlowGraphOptions) : List String :=
  ((resolvedEdgePairs raw opts).map (fun p => [p.1, p.2])).flatten

theorem placeholderWarning_inj {a b : String}
    (h : placeholderWarning a = placeholderWarning b) : a = b := by
  have hd := congrArg String.data h
  have hd2 : (("Added placeholder node for \"" ++ a) ++ "\" referenced by an edge.").data
      = (("Added placeholder node for \"" ++ b) ++ "\" referenced by an edge.").data := hd
  rw [String.data_append, String.data_append, String.data_append, String.data_append] at hd2
  have h1 := List.append_cancel_right hd2
  have h2 := List.append_cancel_left h1
  exact String.ext h2

theorem leadsList_append {pat l : List Char} (b : List Char)
    (h : leadsList pat l = true) : leadsList pat (l ++ b) = true := by
  induction pat generalizing l with
  | nil => rfl
  | cons p ps ih =>
      cases l with
      | nil => exact absurd h (by simp [leadsList])
      | cons c cs =>
          simp only [leadsList, Bool.and_eq_true] at h ⊢
          exact ⟨h.1, ih h.2⟩

theorem occursIn_append_left {pat a : List Char} (b : List Char)
    (h : occursIn pat a = true) : occursIn pat (a ++ b) = true := by
  induction a with
  | nil =>
      simp only [occursIn, List.isEmpty_iff] at h
      subst h
      cases b with
      | nil => rfl
      | cons c cs => simp [occursIn, leadsList]
  | cons c cs ih =>
      simp only [occursIn, Bool.or_eq_true] at h ⊢
      rcases h with h1 | h2
      · exact Or.inl (leadsList_append b h1)
      · exact Or.inr (ih h2)

theorem strContains_append_left {s : String} (t : String) {pat : String}
    (h : strContains s pat = true) : strContains (s ++ t) pat = true := by
  unfold strContains at h ⊢
  rw [String.data_append]
  exact occursIn_append_left t.data h

theorem placeholderWarning_contains (x : String) :
    strContains (placeholderWarning x) "placeholder node" = true := by
  show strContains (("Added placeholder node for \"" ++ x) ++ "\" referenced by an edge.")
      "placeholder node" = true
  refine strContains_append_left _ (strContains_append_left _ ?_)
  decide

theorem normalize_fields {raw : Option JVal} {root : List (String × JVal)}
    (opts : NormalizeFlowGraphOptions) (pk : String) (h : asRecord raw = some root) :
    (normalizeFlowGraph raw pk opts).nodes =
      ((finalEdgeState opts root).nodeMap.map toNormalizedNode).insertionSort nodeLe
    ∧ (normalizeFlowGraph raw pk opts).edges =
      ((finalEdgeState opts root).edgeMap.map (·.2)).insertionSort edgeLe
    ∧ (normalizeFlowGraph raw pk opts).warnings = (finalEdgeState opts root).warnings := by
  simp only [normalizeFlowGraph, h]
  exact ⟨rfl, rfl, rfl⟩

/-- C2: every output edge's endpoints are ids of output nodes, and each
distinct edge-endpoint reference resolving to an undeclared id produces
exactly one "other"-kind placeholder node and exactly one placeholder
warning (which contains the text "placeholder node"), regardless of how
many edges reference it. -/
theorem normalize_placeholder_closure :
    ∀ (raw : Option JVal) (pk : String) (opts : NormalizeFlowGraphOptions),
      (∀ e ∈ (normalizeFlowGraph raw pk opts).edges,
        (∃ n ∈ (normalizeFlowGraph raw pk opts).nodes, n.id = e.from')
        ∧ (∃ n ∈ (normalizeFlowGraph raw pk opts).nodes, n.id = e.to'))
      ∧ (∀ x ∈ endpointIds raw opts, x ∉ declaredIds raw opts →
          (normalizeFlowGraph raw pk opts).nodes.countP (fun n => n.id == x) = 1
          ∧ (∀ n ∈ (normalizeFlowGraph raw pk opts).nodes, n.id = x → n.kind = .other)
          ∧ (normalizeFlowGraph raw pk opts).warnings.count (placeholderWarning x) = 1
          ∧ strContains (placeholderWarning x) "placeholder node" = true) := by
  intro raw pk opts
  cases h : asRecord raw with
  | none =>
      have he : normalizeFlowGraph raw pk opts = emptyFlowMap pk := by
        simp only [normalizeFlowGraph, h]
      constructor
      · rw [he]
        intro e he'
        exact absurd he' (List.not_mem_nil e)
      · intro x hx
        unfold endpointIds resolvedEdgePairs at hx
        rw [h] at hx
        simp at hx
  | some root =>
      obtain ⟨hnodes, hedges, hwarns⟩ := normalize_fields opts pk h
      obtain ⟨hInv, hPairs⟩ := finalEdgeState_inv opts root
      obtain ⟨⟨extra, hm, hph, hw⟩, hnd, hqinv, hknd⟩ := hInv
      have hmemN : ∀ x ∈ idsOf (finalEdgeState opts root).nodeMap,
          ∃ n ∈ (normalizeFlowGraph raw pk opts).nodes, n.id = x := by
        intro x hx
        obtain ⟨nd, hndm, hid⟩ := List.mem_map.mp hx
        refine ⟨toNormalizedNode nd, ?_, hid⟩
        rw [hnodes]
        exact (List.perm_insertionSort nodeLe _).mem_iff.mpr
          (List.mem_map_of_mem toNormalizedNode hndm)
      constructor
      · intro e hemem
        rw [hedges] at hemem
        have hmm : e ∈ (finalEdgeState opts root).edgeMap.map (·.2) :=
          (List.perm_insertionSort edgeLe _).mem_iff.mp hemem
        obtain ⟨q, hq, hq2⟩ := List.mem_map.mp hmm
        obtain ⟨_, hf, ht, _⟩ := hqinv q hq
        exact ⟨hmemN _ (hq2 ▸ hf), hmemN _ (hq2 ▸ ht)⟩
      · intro x hx hnotdecl
        have hdecl : x ∉ idsOf (preEdgeState opts root).nodeMap := by
          unfold declaredIds at hnotdecl
          rw [h] at hnotdecl
          exact hnotdecl
        have hx' : x ∈ idsOf (finalEdgeState opts root).nodeMap := by
          unfold endpointIds resolvedEdgePairs at hx
          rw [h] at hx
          simp only [List.mem_flatten, List.mem_map] at hx
          obtain ⟨l, ⟨pr, ⟨p0, hp0, hpr⟩, hl⟩, hxl⟩ := hx
          obtain ⟨hp1, hp2⟩ := hPairs p0 hp0
          rw [← hpr] at hl
          rw [← hl] at hxl
          simp only [List.mem_cons, List.mem_singleton] at hxl
          rcases hxl with h1 | h2
          · rw [h1]
            exact hp1
          · rcases h2 with h2 | h2
            · rw [h2]
              exact hp2
            · exact absurd h2 (List.not_mem_nil x)
        have hxextra : x ∈ idsOf extra := by
          rw [hm, idsOf_append] at hx'
          rcases List.mem_append.mp hx' with h1 | h2
          · exact absurd h1 hdecl
          · exact h2
        have hndextra : (idsOf extra).Nodup := by
          have hnd' := hnd
          rw [hm, idsOf_append] at hnd'
          exact hnd'.of_append_right
        refine ⟨?_, ?_, ?_, placeholderWarning_contains x⟩
        · rw [hnodes, (List.perm_insertionSort nodeLe _).countP_eq, List.countP_map]
          show (finalEdgeState opts root).nodeMap.countP (fun nd => nd.id == x) = 1
          have hcount : (finalEdgeState opts root).nodeMap.countP (fun nd => nd.id == x)
              = (idsOf (finalEdgeState opts root).nodeMap).count x := by
            rw [show (idsOf (finalEdgeState opts root).nodeMap).count x
                = (idsOf (finalEdgeState opts root).nodeMap).countP (fun y => y == x) from rfl]
            rw [idsOf, List.countP_map]
            rfl
          rw [hcount]
          exact List.count_eq_one_of_mem hnd hx'
        · intro n hn hid
          rw [hnodes] at hn
          have hn' : n ∈ (finalEdgeState opts root).nodeMap.map toNormalizedNode :=
            (List.perm_insertionSort nodeLe _).mem_iff.mp hn
          obtain ⟨nd, hndmem, hndeq⟩ := List.mem_map.mp hn'
          have hndid : nd.id = x := by
            rw [← hid, ← hndeq]
            rfl
          rw [hm] at hndmem
          rcases List.mem_append.mp hndmem with h1 | h2
          · exact absurd (hndid ▸ List.mem_map_of_mem (·.id) h1) hdecl
          · rw [← hndeq]
            exact (hph nd h2).1
        · rw [hwarns, hw, List.count_append]
          have hW0 : ((preEdgeState opts root).warnings).count (placeholderWarning x) = 0 := by
            rw [List.count_eq_zero]
            intro hmem
            have hhead := preEdgeState_warnings opts root _ hmem
            rw [head_placeholderWarning x] at hhead
            exact absurd (Option.some.inj hhead) (by decide)
          rw [hW0, Nat.zero_add]
          have hcnt : (extra.map (fun n => placeholderWarning n.id)).count (placeholderWarning x)
              = (idsOf extra).count x := by
            rw [show (extra.map (fun n => placeholderWarning n.id)).count (placeholderWarning x)
                = (extra.map (fun n => placeholderWarning n.id)).countP
                  (fun w => w == placeholderWarning x) from rfl]
            rw [List.countP_map]
            rw [show (idsOf extra).count x = (idsOf extra).countP (fun y => y == x) from rfl]
            rw [idsOf, List.countP_map]
            congr 1
            funext nd
            simp only [Function.comp]
            by_cases hcase : nd.id = x
            · simp [hcase]
            · have h1 : (nd.id == x) = false := beq_eq_false_iff_ne.mpr hcase
              have h2 : (placeholderWarning nd.id == placeholderWarning x) = false := by
                rw [beq_eq_false_iff_ne]
                intro hcontra
                exact hcase (placeholderWarning_inj hcontra)
              rw [h1, h2]
          rw [hcnt]
          exact List.count_eq_one_of_mem hndextra hxextra

/-- Input with an edge reference to the undeclared id "B". -/
def phInput : JVal := .obj [("nodes", .obj [
  ("A", .obj [("successors", .arr [.str "B"])])])]

/-- Witness for C2 at a concrete input whose edge references the undeclared
id "B". -/
theorem normalize_placeholder_closure_witness :
    "B" ∈ endpointIds (some phInput) {} ∧ "B" ∉ declaredIds (some phInput) {}
    ∧ (normalizeFlowGraph (some phInput) "P").nodes.countP (fun n => n.id == "B") = 1 :=
  ⟨by decide, by decide,
    ((normalize_placeholder_closure (some phInput) "P" {}).2 "B"
      (by decide) (by decide)).1⟩

/-- The edge occurrences emitted by the two adjacency loops, one per
`addEdge` call, carrying the relation that call computes.  (Stored kinds
never change during the edge phase — `ensureNode` only appends — so each
call's relation can be read off the final node map.) -/
def emittedOccurrences (raw : Option JVal) (opts : NormalizeFlowGraphOptions) :
    List NormalizedFlowEdge :=
  match asRecord raw with
  | none => []
  | some root =>
      (emittedRefPairs (preEdgeState opts root).nodeMap).map
        (fun p =>
          { from' := resolveAlias (preEdgeState opts root).aliasMap p.1
            to' := resolveAlias (preEdgeState opts root).aliasMap p.2
            relation := inferRelation
              (kindOf (finalEdgeState opts root).nodeMap
                (resolveAlias (preEdgeState opts root).aliasMap p.1))
              (kindOf (finalEdgeState opts root).nodeMap
                (resolveAlias (preEdgeState opts root).aliasMap p.2)) })

/-- C5: no two output edges share the same ordered `(from, to)` pair, and
each output pair's relation has rank at least that of every emitted edge
occurrence with the same ordered pair (ranking reads = writes = 3 >
depends_on = 2 > unknown = 1). -/
theorem normalize_edge_dedup_rank :
    ∀ (raw : Option JVal) (pk : String) (opts : NormalizeFlowGraphOptions),
      List.Pairwise (fun e1 e2 => ¬(e1.from' = e2.from' ∧ e1.to' = e2.to'))
        (normalizeFlowGraph raw pk opts).edges
      ∧ (∀ e ∈ (normalizeFlowGraph raw pk opts).edges,
          ∀ occ ∈ emittedOccurrences raw opts,
            occ.from' = e.from' → occ.to' = e.to' →
            relationRank occ.relation ≤ relationRank e.relation) := by
  intro raw pk opts
  cases h : asRecord raw with
  | none =>
      have he : normalizeFlowGraph raw pk opts = emptyFlowMap pk := by
        simp only [normalizeFlowGraph, h]
      rw [he]
      exact ⟨List.Pairwise.nil, fun e he' => absurd he' (List.not_mem_nil e)⟩
  | some root =>
      obtain ⟨hnodes, hedges, hwarns⟩ := normalize_fields opts pk h
      obtain ⟨hInv, hPairs⟩ := finalEdgeState_inv opts root
      obtain ⟨hExt, hnd, hqinv, hknd⟩ := hInv
      constructor
      · rw [hedges]
        have hsym : ∀ {x y : NormalizedFlowEdge},
            (¬(x.from' = y.from' ∧ x.to' = y.to')) →
            (¬(y.from' = x.from' ∧ y.to' = x.to')) := by
          intro x y hxy hcon
          exact hxy ⟨hcon.1.symm, hcon.2.symm⟩
        rw [(List.Perm.pairwise_iff hsym (List.perm_insertionSort edgeLe _))]
        rw [List.pairwise_map]
        have hkeys : List.Pairwise (fun q1 q2 : String × NormalizedFlowEdge => q1.1 ≠ q2.1)
            (finalEdgeState opts root).edgeMap := by
          have := hknd
          rw [List.Nodup, List.pairwise_map] at this
          exact this
        refine hkeys.imp_of_mem ?_
        intro q1 q2 h1 h2 hne hcon
        apply hne
        rw [(hqinv q1 h1).1, (hqinv q2 h2).1, hcon.1, hcon.2]
      · intro e hemem occ hocc hf ht
        rw [hedges] at hemem
        have hmm : e ∈ (finalEdgeState opts root).edgeMap.map (·.2) :=
          (List.perm_insertionSort edgeLe _).mem_iff.mp hemem
        obtain ⟨q, hq, hq2⟩ := List.mem_map.mp hmm
        obtain ⟨_, _, _, hrel⟩ := hqinv q hq
        unfold emittedOccurrences at hocc
        rw [h] at hocc
        obtain ⟨p, hp, hpe⟩ := List.mem_map.mp hocc
        have hoccrel : occ.relation = inferRelation
            (kindOf (finalEdgeState opts root).nodeMap occ.from')
            (kindOf (finalEdgeState opts root).nodeMap occ.to') := by
          rw [← hpe]
        have herel : e.relation = inferRelation
            (kindOf (finalEdgeState opts root).nodeMap e.from')
            (kindOf (finalEdgeState opts root).nodeMap e.to') := by
          rw [← hq2]
          exact hrel
        rw [hoccrel, hf, ht, ← herel]

/-! ### Claim C10: key collisions in edge deduplication -/

/-- Whether a char list ends with ':'. -/
def lastIsColon : List Char → Bool
  | [] => false
  | [c] => c == ':'
  | _ :: c :: rest => lastIsColon (c :: rest)

theorem occursIn_tail {pat : List Char} {x : Char} {xs : List Char}
    (h : occursIn pat (x :: xs) = false) : occursIn pat xs = false := by
  have h' : (leadsList pat (x :: xs) || occursIn pat xs) = false := h
  exact (Bool.or_eq_false_iff.mp h').2

theorem colonKey_inj_list : ∀ (a b : List Char) {c d : List Char},
    occursIn [':', ':'] a = false → lastIsColon a = false →
    occursIn [':', ':'] b = false → lastIsColon b = false →
    a ++ ':' :: ':' :: c = b ++ ':' :: ':' :: d → a = b ∧ c = d
  | [], [], c, d, _, _, _, _, heq => ⟨rfl, by simpa using heq⟩
  | [], x :: xs, c, d, _, _, hb, hbe, heq => by
      rw [List.nil_append, List.cons_append] at heq
      injection heq with hx heq2
      cases xs with
      | nil =>
          exfalso
          have : lastIsColon [x] = true := by
            simp [lastIsColon, ← hx]
          rw [this] at hbe
          exact Bool.noConfusion hbe
      | cons y ys =>
          exfalso
          rw [List.cons_append] at heq2
          injection heq2 with hy _
          have : occursIn [':', ':'] (x :: y :: ys) = true := by
            have hl : leadsList [':', ':'] (x :: y :: ys) = true := by
              simp [leadsList, ← hx, ← hy]
            simp [occursIn, hl]
          rw [this] at hb
          exact Bool.noConfusion hb
  | x :: xs, [], c, d, ha, hae, _, _, heq => by
      rw [List.nil_append, List.cons_append] at heq
      injection heq with hx heq2
      cases xs with
      | nil =>
          exfalso
          have : lastIsColon [x] = true := by
            simp [lastIsColon, hx]
          rw [this] at hae
          exact Bool.noConfusion hae
      | cons y ys =>
          exfalso
          rw [List.cons_append] at heq2
          injection heq2 with hy _
          have : occursIn [':', ':'] (x :: y :: ys) = true := by
            have hl : leadsList [':', ':'] (x :: y :: ys) = true := by
              simp [leadsList, hx, hy]
            simp [occursIn, hl]
          rw [this] at ha
          exact Bool.noConfusion ha
  | x :: xs, y :: ys, c, d, ha, hae, hb, hbe, heq => by
      rw [List.cons_append, List.cons_append] at heq
      injection heq with hxy heq2
      have hat : occursIn [':', ':'] xs = false := occursIn_tail ha
      have hbt : occursIn [':', ':'] ys = false := occursIn_tail hb
      have haet : lastIsColon xs = false := by
        cases xs with
        | nil => rfl
        | cons z zs => exact hae
      have hbet : lastIsColon ys = false := by
        cases ys with
        | nil => rfl
        | cons z zs => exact hbe
      obtain ⟨h1, h2⟩ := colonKey_inj_list xs ys hat haet hbt hbet heq2
      exact ⟨by rw [hxy, h1], h2⟩

/-- A resolved id that is safe for the `from::to` keying scheme. -/
def colonSafe (s : String) : Prop :=
  strContains s "::" = false ∧ lastIsColon s.data = false

/-- Injectivity of the `${from}::${to}` edge key on colon-safe `from` ids. -/
theorem edgeKey_inj {f1 t1 f2 t2 : String} (h1 : colonSafe f1) (h2 : colonSafe f2)
    (heq : f1 ++ "::" ++ t1 = f2 ++ "::" ++ t2) : f1 = f2 ∧ t1 = t2 := by
  have hd := congrArg String.data heq
  rw [String.data_append, String.data_append, String.data_append, String.data_append] at hd
  have hd2 : f1.data ++ ':' :: ':' :: t1.data = f2.data ++ ':' :: ':' :: t2.data := by
    have hcc : ("::" : String).data = [':', ':'] := rfl
    rw [hcc] at hd
    simpa [List.append_assoc] using hd
  have hca : occursIn [':', ':'] f1.data = false := h1.1
  have hcb : occursIn [':', ':'] f2.data = false := h2.1
  obtain ⟨he1, he2⟩ := colonKey_inj_list f1.data f2.data hca h1.2 hcb h2.2 hd2
  exact ⟨String.ext he1, String.ext he2⟩

theorem updateEdgeMap_preserve {em : List (String × NormalizedFlowEdge)} {k : String}
    {e : NormalizedFlowEdge} {q1 : String × NormalizedFlowEdge}
    (hq1 : q1 ∈ em) (hne : q1.1 ≠ k) : q1 ∈ updateEdgeMap em k e := by
  cases hf : em.find? (fun q => q.1 == k) with
  | none =>
      rw [updateEdgeMap_eq_of_none _ hf, setEdge_of_not_mem _ (not_mem_keys_of_find?_none hf)]
      exact List.mem_append_left _ hq1
  | some q0 =>
      rw [updateEdgeMap_eq_of_some _ hf]
      by_cases hr : relationRank e.relation > relationRank q0.2.relation
      · rw [if_pos hr]
        exact mem_setEdge_of_ne hq1 hne
      · rw [if_neg hr]
        exact hq1

theorem updateEdgeMap_pair_present {em : List (String × NormalizedFlowEdge)} {f t : String}
    {r : FlowEdgeRelation}
    (hshape : ∀ q ∈ em, q.1 = q.2.from' ++ "::" ++ q.2.to')
    (hsafe : ∀ q ∈ em, colonSafe q.2.from')
    (hf : colonSafe f) :
    ∃ q ∈ updateEdgeMap em (f ++ "::" ++ t) ⟨f, t, r⟩,
      q.2.from' = f ∧ q.2.to' = t := by
  cases hfind : em.find? (fun q => q.1 == (f ++ "::" ++ t)) with
  | none =>
      rw [updateEdgeMap_eq_of_none _ hfind,
        setEdge_of_not_mem _ (not_mem_keys_of_find?_none hfind)]
      exact ⟨(f ++ "::" ++ t, ⟨f, t, r⟩),
        List.mem_append_right _ (List.mem_singleton_self _), rfl, rfl⟩
  | some q0 =>
      obtain ⟨hq0m, hq0k⟩ := find?_keys_some hfind
      rw [updateEdgeMap_eq_of_some _ hfind]
      by_cases hr : relationRank (NormalizedFlowEdge.mk f t r).relation
          > relationRank q0.2.relation
      · rw [if_pos hr]
        exact ⟨(f ++ "::" ++ t, ⟨f, t, r⟩), setEdge_self _ _ _, rfl, rfl⟩
      · rw [if_neg hr]
        have hkeyeq : q0.2.from' ++ "::" ++ q0.2.to' = f ++ "::" ++ t := by
          rw [← hshape q0 hq0m]
          exact hq0k
        obtain ⟨hf0, ht0⟩ := edgeKey_inj (hsafe q0 hq0m) hf hkeyeq
        exact ⟨q0, hq0m, hf0, ht0⟩

theorem buildEdges_complete (am : List (String × String)) :
    ∀ (pairs : List (String × String)) (es : EdgeState) (done : List (String × String)),
      (∀ p ∈ pairs, colonSafe (resolveAlias am p.1)) →
      (∀ pr ∈ done, colonSafe pr.1) →
      (∀ q ∈ es.edgeMap, q.1 = q.2.from' ++ "::" ++ q.2.to'
        ∧ (q.2.from', q.2.to') ∈ done) →
      (∀ pr ∈ done, ∃ q ∈ es.edgeMap, q.2.from' = pr.1 ∧ q.2.to' = pr.2) →
      (∀ q ∈ (pairs.foldl (fun es p => addEdge am es p.1 p.2) es).edgeMap,
          q.1 = q.2.from' ++ "::" ++ q.2.to'
          ∧ (q.2.from', q.2.to') ∈
              done ++ pairs.map (fun p => (resolveAlias am p.1, resolveAlias am p.2)))
      ∧ (∀ pr ∈ done ++ pairs.map (fun p => (resolveAlias am p.1, resolveAlias am p.2)),
          ∃ q ∈ (pairs.foldl (fun es p => addEdge am es p.1 p.2) es).edgeMap,
            q.2.from' = pr.1 ∧ q.2.to' = pr.2)
  | [], es, done, _, _, hinv1, hinv2 => by
      simp only [List.foldl_nil, List.map_nil, List.append_nil]
      exact ⟨hinv1, hinv2⟩
  | p :: pairs, es, done, hps, hds, hinv1, hinv2 => by
      have hedge : (addEdge am es p.1 p.2).edgeMap =
          updateEdgeMap es.edgeMap
            (resolveAlias am p.1 ++ "::" ++ resolveAlias am p.2)
            ⟨resolveAlias am p.1, resolveAlias am p.2,
              inferRelation
                (ensureNode es.nodeMap es.warnings (resolveAlias am p.1)).1.kind
                (ensureNode (ensureNode es.nodeMap es.warnings (resolveAlias am p.1)).2.1
                  (ensureNode es.nodeMap es.warnings (resolveAlias am p.1)).2.2
                  (resolveAlias am p.2)).1.kind⟩ := rfl
      have hsafef : colonSafe (resolveAlias am p.1) := hps p (List.mem_cons_self _ _)
      have hsafeentries : ∀ q ∈ es.edgeMap, colonSafe q.2.from' := by
        intro q hq
        exact hds _ (hinv1 q hq).2
      have hshapes : ∀ q ∈ es.edgeMap, q.1 = q.2.from' ++ "::" ++ q.2.to' := by
        intro q hq
        exact (hinv1 q hq).1
      have hstep1 : ∀ q ∈ (addEdge am es p.1 p.2).edgeMap,
          q.1 = q.2.from' ++ "::" ++ q.2.to'
          ∧ (q.2.from', q.2.to') ∈ done ++ [(resolveAlias am p.1, resolveAlias am p.2)] := by
        intro q hq
        rw [hedge] at hq
        rcases mem_updateEdgeMap hq with hnew | hold
        · subst hnew
          exact ⟨rfl, List.mem_append_right _ (List.mem_singleton_self _)⟩
        · obtain ⟨hsh, hd⟩ := hinv1 q hold
          exact ⟨hsh, List.mem_append_left _ hd⟩
      have hnewpair : ∃ q ∈ (addEdge am es p.1 p.2).edgeMap,
          q.2.from' = resolveAlias am p.1 ∧ q.2.to' = resolveAlias am p.2 := by
        rw [hedge]
        exact updateEdgeMap_pair_present hshapes hsafeentries hsafef
      have hstep2 : ∀ pr ∈ done ++ [(resolveAlias am p.1, resolveAlias am p.2)],
          ∃ q ∈ (addEdge am es p.1 p.2).edgeMap,
            q.2.from' = pr.1 ∧ q.2.to' = pr.2 := by
        intro pr hpr
        rcases List.mem_append.mp hpr with hin | hnewp
        · obtain ⟨q1, hq1, hq1f, hq1t⟩ := hinv2 pr hin
          by_cases hkey : q1.1 = resolveAlias am p.1 ++ "::" ++ resolveAlias am p.2
          · have hkeyeq : pr.1 ++ "::" ++ pr.2
                = resolveAlias am p.1 ++ "::" ++ resolveAlias am p.2 := by
              rw [← hq1f, ← hq1t, ← hshapes q1 hq1]
              exact hkey
            obtain ⟨hpf, hpt⟩ := edgeKey_inj (hds pr hin) hsafef hkeyeq
            obtain ⟨q2, hq2, hq2f, hq2t⟩ := hnewpair
            exact ⟨q2, hq2, by rw [hq2f, hpf], by rw [hq2t, hpt]⟩
          · refine ⟨q1, ?_, hq1f, hq1t⟩
            rw [hedge]
            exact updateEdgeMap_preserve hq1 hkey
        · rw [List.mem_singleton] at hnewp
          subst hnewp
          exact hnewpair
      have hrec := buildEdges_complete am pairs (addEdge am es p.1 p.2)
        (done ++ [(resolveAlias am p.1, resolveAlias am p.2)])
        (fun q hq => hps q (List.mem_cons_of_mem _ hq))
        (by
          intro pr hpr
          rcases List.mem_append.mp hpr with hin | hnewp
          · exact hds pr hin
          · rw [List.mem_singleton] at hnewp
            subst hnewp
            exact hsafef)
        hstep1 hstep2
      rw [List.foldl_cons, List.map_cons]
      rw [show done ++ ((resolveAlias am p.1, resolveAlias am p.2)
            :: pairs.map (fun p => (resolveAlias am p.1, resolveAlias am p.2)))
          = (done ++ [(resolveAlias am p.1, resolveAlias am p.2)])
            ++ pairs.map (fun p => (resolveAlias am p.1, resolveAlias am p.2)) by
        rw [List.append_assoc, List.singleton_append]]
      exact hrec

/-- Two nodes whose successor references produce the colliding keys
`"a:" ++ "::" ++ "b"` and `"a" ++ "::" ++ ":b"` (both `"a:::b"`) without
any resolved id containing the substring `"::"`. -/
def colInput : JVal := .obj [("nodes", .obj [
  ("a:", .obj [("successors", .arr [.str "b"])]),
  ("a", .obj [("successors", .arr [.str ":b"])])])]

/-- Counterexample to C10 as stated: on `colInput` the distinct resolved
pair `("a", ":b")` is emitted, no resolved endpoint id contains `"::"`, yet
the only output edge is `a: → b` — the second pair is lost to the key
collision.  The precondition "no id contains ::" is therefore insufficient. -/
theorem edgeKey_collision_counterexample :
    ("a", ":b") ∈ resolvedEdgePairs (some colInput) {}
    ∧ (∀ x ∈ endpointIds (some colInput) {}, strContains x "::" = false)
    ∧ (normalizeFlowGraph (some colInput) "P").edges =
        [⟨"a:", "b", .unknown⟩] :=
  ⟨by decide, by decide, by decide⟩

/-- C10 (amended): edge deduplication keys ordered pairs by the string
`from ++ "::" ++ to`; under the precondition that no resolved edge-endpoint
id contains the substring `"::"` **and none ends with the character ':'**,
the key is injective on the emitted pairs, so every distinct resolved
ordered pair emitted from some node's adjacency lists appears as an edge of
the output (edge-pair completeness). -/
theorem normalize_edge_completeness :
    ∀ (raw : Option JVal) (pk : String) (opts : NormalizeFlowGraphOptions),
      (∀ x ∈ endpointIds raw opts,
        strContains x "::" = false ∧ lastIsColon x.data = false) →
      ∀ p ∈ resolvedEdgePairs raw opts,
        ∃ e ∈ (normalizeFlowGraph raw pk opts).edges,
          e.from' = p.1 ∧ e.to' = p.2 := by
  intro raw pk opts hsafe p hp
  cases h : asRecord raw with
  | none =>
      unfold resolvedEdgePairs at hp
      rw [h] at hp
      exact absurd hp (List.not_mem_nil p)
  | some root =>
      obtain ⟨hnodes, hedges, _⟩ := normalize_fields opts pk h
      have hps : ∀ rp ∈ emittedRefPairs (preEdgeState opts root).nodeMap,
          colonSafe (resolveAlias (preEdgeState opts root).aliasMap rp.1) := by
        intro rp hrp
        have hblock : (resolveAlias (preEdgeState opts root).aliasMap rp.1,
            resolveAlias (preEdgeState opts root).aliasMap rp.2) ∈
            (emittedRefPairs (preEdgeState opts root).nodeMap).map
              (fun p => (resolveAlias (preEdgeState opts root).aliasMap p.1,
                         resolveAlias (preEdgeState opts root).aliasMap p.2)) :=
          List.mem_map_of_mem _ hrp
        have hmemEP : resolveAlias (preEdgeState opts root).aliasMap rp.1
            ∈ endpointIds raw opts := by
          unfold endpointIds resolvedEdgePairs
          rw [h]
          refine List.mem_flatten.mpr
            ⟨[resolveAlias (preEdgeState opts root).aliasMap rp.1,
              resolveAlias (preEdgeState opts root).aliasMap rp.2], ?_, ?_⟩
          · exact List.mem_map_of_mem _ hblock
          · exact List.mem_cons_self _ _
        exact hsafe _ hmemEP
      obtain ⟨_, hcomp⟩ := buildEdges_complete (preEdgeState opts root).aliasMap
        (emittedRefPairs (preEdgeState opts root).nodeMap)
        { nodeMap := (preEdgeState opts root).nodeMap, edgeMap := [],
          warnings := (preEdgeState opts root).warnings }
        [] hps (by simp) (by simp) (by simp)
      have hp' : p ∈ ([] : List (String × String)) ++
          (emittedRefPairs (preEdgeState opts root).nodeMap).map
            (fun p => (resolveAlias (preEdgeState opts root).aliasMap p.1,
                       resolveAlias (preEdgeState opts root).aliasMap p.2)) := by
        unfold resolvedEdgePairs at hp
        rw [h] at hp
        simpa using hp
      obtain ⟨q, hq, hqf, hqt⟩ := hcomp p hp'
      refine ⟨q.2, ?_, hqf, hqt⟩
      rw [hedges]
      refine (List.perm_insertionSort edgeLe _).mem_iff.mpr ?_
      exact List.mem_map_of_mem (·.2) hq

/-- Witness for the amended C10 at the concrete chain input. -/
theorem normalize_edge_completeness_witness :
    ∃ e ∈ (normalizeFlowGraph (some chainInput) "P").edges,
      e.from' = "ds1" ∧ e.to' = "r1" :=
  normalize_edge_completeness (some chainInput) "P" {} (by decide)
    ("ds1", "r1") (by decide)

/-- Witness for C4: "ds1" is a root of the chain example, so it is a node
id with no incoming edge. -/
theorem normalize_roots_leaves_witness :
    (∃ n ∈ (normalizeFlowGraph (some chainInput) "P").nodes, n.id = "ds1")
    ∧ ∀ e ∈ (normalizeFlowGraph (some chainInput) "P").edges, e.to' ≠ "ds1" :=
  ((normalize_roots_leaves.1 (some chainInput) "P" {} "ds1").1).mp (by decide)

/-- Witness for C5 at the chain example: the output edge ds1→r1 carries at
least the rank of the emitted ds1→r1 occurrence. -/
theorem normalize_edge_dedup_rank_witness :
    relationRank FlowEdgeRelation.reads ≤ relationRank FlowEdgeRelation.reads :=
  (normalize_edge_dedup_rank (some chainInput) "P" {}).2
    ⟨"ds1", "r1", .reads⟩ (by decide) ⟨"ds1", "r1", .reads⟩ (by decide) rfl rfl
